import Mathlib

/-!
Verification of the graph engine of `grafo_enron.py` (TDE3-Grafos).

The Python program stores a weighted directed graph as a dict-of-dicts
`{sender: {recipient: weight}}` plus a vertex set.  We embed this shallowly:
Python dicts become association lists (insertion ordered, first-key lookup),
the vertex set becomes a duplicate-free list, and the `heapq` priority queue
becomes a list from which the lexicographically least `(distance, vertex)`
pair is removed at each pop.  Machine integers are `Nat` (Python ints are
unbounded; every quantity here is a non-negative count).  The unbounded
`while fila:` loops become structurally recursive functions on a fuel
argument; the fuel passed by the wrappers is proved sufficient, so the
wrappers compute exactly what the Python loops compute.
-/

set_option linter.unusedSectionVars false

namespace GrafoEnron

variable {V : Type} [DecidableEq V] [LinearOrder V]

/-- Neighbour table of one vertex: recipient ↦ weight (a Python inner dict). -/
abbrev Adj (V : Type) := List (V × Nat)

/-- The adjacency structure `self.grafo`: sender ↦ neighbour table. -/
abbrev Grafo (V : Type) := List (V × Adj V)

/-- Association-list lookup: value at the first occurrence of the key
(the semantics of Python `d[k]` / `k in d`). -/
def lookupA : List (V × α) → V → Option α
  | [], _ => none
  | (k', v') :: t, k => if k' = k then some v' else lookupA t k

/-- Association-list update `d[k] = v`: replace the value at the first
occurrence of `k`, or append `(k, v)` at the end — exactly the
insertion-order behaviour of a Python dict assignment. -/
def setA : List (V × α) → V → α → List (V × α)
  | [], k, v => [(k, v)]
  | (k', v') :: t, k, v => if k' = k then (k, v) :: t else (k', v') :: setA t k v

/-- `self.grafo.get(v, {})`: neighbour table of `v`, empty if absent. -/
def vizinhos (g : Grafo V) (v : V) : Adj V := (lookupA g v).getD []

/-- `(w, p)` is an edge `v →(p) w` of the graph. -/
def edge (g : Grafo V) (v w : V) (p : Nat) : Prop := (w, p) ∈ vizinhos g v

instance (g : Grafo V) (v w : V) (p : Nat) : Decidable (edge g v w p) := by
  unfold edge; infer_instance

/-- All vertices that occur as the target of some edge entry. -/
def targetsOf (g : Grafo V) : List V := (g.map (fun e => e.2.map Prod.fst)).flatten

/-- Sum of the weights of one neighbour table (`sum(d.values())`). -/
def sumW (adj : Adj V) : Nat := (adj.map Prod.snd).sum

/-- Total weight of all edges of the graph. -/
def pesoTotal (g : Grafo V) : Nat := (g.map (fun e => sumW e.2)).sum

/-! ## The mutable program state and `_adicionar_aresta` -/

/-- The state of a `GrafoEnron` object: `self.grafo` and `self.vertices`. -/
structure Estado (V : Type) where
  grafo : Grafo V
  vertices : List V

/-- `GrafoEnron.__init__`: empty adjacency dict and empty vertex set. -/
def estadoVazio : Estado V := ⟨[], []⟩

/-- `self.vertices.update([v])`: the vertex set gains `v` if absent. -/
def addVertice (l : List V) (v : V) : List V := if v ∈ l then l else l ++ [v]

/-- `_adicionar_aresta(de, para)`: no-op on a self-loop, otherwise registers
both endpoints, creates the edge with weight 1 or increments it, and makes
sure `para` has a (possibly empty) adjacency entry. -/
def adicionarAresta (st : Estado V) (de para : V) : Estado V :=
  if para = de then st
  else
    let vs := addVertice (addVertice st.vertices de) para
    let adjDe := vizinhos st.grafo de
    let g1 :=
      match lookupA adjDe para with
      | some w => setA st.grafo de (setA adjDe para (w + 1))
      | none => setA st.grafo de (setA adjDe para 1)
    let g2 := if (lookupA g1 para).isSome then g1 else g1 ++ [(para, [])]
    ⟨g2, vs⟩

/-- Build a state from a list of `(sender, recipient)` pairs, as
`processar_emails` does through repeated `_adicionar_aresta` calls. -/
def construir (pares : List (V × V)) : Estado V :=
  pares.foldl (fun s p => adicionarAresta s p.1 p.2) estadoVazio

/-- Insert the same ordered pair `n` times into the empty graph. -/
def inserirNVezes (a b : V) : Nat → Estado V
  | 0 => estadoVazio
  | n + 1 => adicionarAresta (inserirNVezes a b n) a b

/-- Well-formedness of a reachable state: duplicate-free vertex set and
dict keys, every vertex has an adjacency entry, all edge endpoints are
vertices, no self-loops, and all weights are positive. -/
def EstadoBom (st : Estado V) : Prop :=
  st.vertices.Nodup ∧
  (st.grafo.map Prod.fst).Nodup ∧
  (∀ e ∈ st.grafo, (e.2.map Prod.fst).Nodup) ∧
  (∀ e ∈ st.grafo, e.1 ∈ st.vertices) ∧
  (∀ v ∈ st.vertices, v ∈ st.grafo.map Prod.fst) ∧
  (∀ e ∈ st.grafo, ∀ vp ∈ e.2, vp.1 ∈ st.vertices) ∧
  (∀ e ∈ st.grafo, ∀ vp ∈ e.2, vp.1 ≠ e.1) ∧
  (∀ e ∈ st.grafo, ∀ vp ∈ e.2, 1 ≤ vp.2)

instance (st : Estado V) : Decidable (EstadoBom st) := by
  unfold EstadoBom; infer_instance

/-- Well-formedness of a bare adjacency structure: no self-loops, positive
weights.  Every graph the program builds satisfies this. -/
def GrafoBom (g : Grafo V) : Prop :=
  (∀ e ∈ g, ∀ vp ∈ e.2, vp.1 ≠ e.1) ∧ (∀ e ∈ g, ∀ vp ∈ e.2, 1 ≤ vp.2)

instance (g : Grafo V) : Decidable (GrafoBom g) := by
  unfold GrafoBom; infer_instance

/-! ## Walks -/

/-- A walk from `o` to `v` along edges of `g`, recorded as the list of
visited vertices (built at the far end, exactly as the program extends
`caminhos[vizinho] = caminhos[atual] + [vizinho]`), with its total weight. -/
inductive IsWalk (g : Grafo V) (o : V) : V → List V → Nat → Prop
  | refl : IsWalk g o o [o] 0
  | snoc {u v : V} {l : List V} {c p : Nat} :
      IsWalk g o u l c → edge g u v p → IsWalk g o v (l ++ [v]) (c + p)

/-- There is a walk of total weight `c` from `o` to `v`. -/
def HasWalk (g : Grafo V) (o v : V) (c : Nat) : Prop := ∃ l, IsWalk g o v l c

/-- `v` is reachable from `o` following edge direction. -/
def Reach (g : Grafo V) (o v : V) : Prop := ∃ c, HasWalk g o v c

/-- A walk annotated with the invariant facts the shortest-path loop
maintains: the walk is duplicate free and every vertex it reaches already
has a settled tentative distance no larger than the weight of the walk up
to that vertex. -/
inductive ClosedWalk (g : Grafo V) (o : V) (dists : List (V × Nat)) : V → List V → Nat → Prop
  | refl : lookupA dists o = some 0 → ClosedWalk g o dists o [o] 0
  | snoc {u v : V} {l : List V} {c p : Nat} :
      ClosedWalk g o dists u l c → edge g u v p → v ∉ l →
      (∃ m, lookupA dists v = some m ∧ m ≤ c + p) →
      ClosedWalk g o dists v (l ++ [v]) (c + p)

/-! ## The priority queue (`heapq`) -/

/-- Least element under the lexicographic `(distance, vertex)` order used by
Python tuples in `heapq`. -/
def minEntry : (Nat × V) → List (Nat × V) → (Nat × V)
  | e, [] => e
  | e, x :: xs => minEntry (if x.1 < e.1 ∨ (x.1 = e.1 ∧ x.2 < e.2) then x else e) xs

/-- `heapq.heappop`: remove and return the least `(distance, vertex)` pair. -/
def popMin : List (Nat × V) → Option ((Nat × V) × List (Nat × V))
  | [] => none
  | x :: xs =>
    let m := minEntry x xs
    some (m, (x :: xs).erase m)

/-! ## `vertices_ate_distancia` (bounded Dijkstra) -/

/-- One relaxation attempt of the bounded search: relax edge `(·, vp)` from
tentative distance `dist`, only when the new distance stays within the bound
and strictly improves the known one. -/
def relaxB (D : Nat) (dist : Nat) (st : List (V × Nat) × List (Nat × V)) (vp : V × Nat) :
    List (V × Nat) × List (Nat × V) :=
  let nova := dist + vp.2
  match lookupA st.1 vp.1 with
  | none => if nova ≤ D then (setA st.1 vp.1 nova, st.2 ++ [(nova, vp.1)]) else st
  | some m => if nova ≤ D ∧ nova < m then (setA st.1 vp.1 nova, st.2 ++ [(nova, vp.1)]) else st

/-- The `while fila:` loop of `vertices_ate_distancia`, on explicit fuel. -/
def vadLoop (g : Grafo V) (D : Nat) :
    Nat → List (V × Nat) × List (Nat × V) → List (V × Nat) × List (Nat × V)
  | 0, st => st
  | fuel + 1, st =>
    match popMin st.2 with
    | none => st
    | some ((dist, atual), resto) =>
      if (lookupA st.1 atual).getD 0 < dist then vadLoop g D fuel (st.1, resto)
      else vadLoop g D fuel ((vizinhos g atual).foldl (relaxB D dist) (st.1, resto))

/-- Cap-and-sum potential of the bounded search; with the queue length it
strictly decreases at every loop iteration, giving a fuel bound. -/
def potB (g : Grafo V) (D : Nat) (dists : List (V × Nat)) : Nat :=
  ((targetsOf g).map (fun v => min ((lookupA dists v).getD (D + 1)) (D + 1))).sum

/-- Sufficient fuel for the bounded search started at `origem`. -/
def vadFuel (g : Grafo V) (origem : V) (D : Nat) : Nat :=
  2 * potB g D [(origem, 0)] + 2

/-- `vertices_ate_distancia(origem, D)`: all vertices other than `origem`
whose settled distance is at most `D`. -/
def verticesAteDistancia (g : Grafo V) (origem : V) (D : Nat) : List V :=
  let final := vadLoop g D (vadFuel g origem D) ([(origem, 0)], [(0, origem)])
  (final.1.filter (fun p => decide (p.1 ≠ origem) && decide (p.2 ≤ D))).map Prod.fst

/-! ## `_dijkstra_com_caminhos` (Dijkstra with path reconstruction) -/

/-- State of the unbounded search: `distancias`, `caminhos`, `fila`. -/
abbrev DState (V : Type) := List (V × Nat) × List (V × List V) × List (Nat × V)

/-- One relaxation attempt of the unbounded search (no staleness check and
no bound, exactly as in `_dijkstra_com_caminhos`); on improvement it also
extends the recorded path of `atual` by the neighbour. -/
def relaxU (atual : V) (dist : Nat) (st : DState V) (vp : V × Nat) : DState V :=
  let nova := dist + vp.2
  let caminhoNovo := ((lookupA st.2.1 atual).getD []) ++ [vp.1]
  match lookupA st.1 vp.1 with
  | none => (setA st.1 vp.1 nova, setA st.2.1 vp.1 caminhoNovo, st.2.2 ++ [(nova, vp.1)])
  | some m =>
    if nova < m then (setA st.1 vp.1 nova, setA st.2.1 vp.1 caminhoNovo, st.2.2 ++ [(nova, vp.1)])
    else st

/-- The `while fila:` loop of `_dijkstra_com_caminhos`, on explicit fuel. -/
def dijLoop (g : Grafo V) : Nat → DState V → DState V
  | 0, st => st
  | fuel + 1, st =>
    match popMin st.2.2 with
    | none => st
    | some ((dist, atual), resto) =>
      dijLoop g fuel ((vizinhos g atual).foldl (relaxU atual dist) (st.1, st.2.1, resto))

/-- Upper bound on every tentative distance the unbounded search ever
stores: a duplicate-free walk has at most `targetsOf g` edges, each of
weight at most `pesoTotal g`. -/
def capU (g : Grafo V) : Nat := (targetsOf g).length * pesoTotal g

/-- Cap-and-sum potential of the unbounded search. -/
def potU (g : Grafo V) (dists : List (V × Nat)) : Nat :=
  ((targetsOf g).map (fun v => min ((lookupA dists v).getD (capU g + 1)) (capU g + 1))).sum

/-- Sufficient fuel for the unbounded search started at `origem`. -/
def dijFuel (g : Grafo V) (origem : V) : Nat := 2 * potU g [(origem, 0)] + 2

/-- `_dijkstra_com_caminhos(origem)`: settled distances and one recorded
shortest path per settled vertex. -/
def dijkstraComCaminhos (g : Grafo V) (origem : V) : List (V × Nat) × List (V × List V) :=
  let final := dijLoop g (dijFuel g origem) ([(origem, 0)], [(origem, [origem])], [(0, origem)])
  (final.1, final.2.1)

/-! ## Breadth-first search and `_eh_fortemente_conexo` -/

/-- The `bfs` inner function: visited set and deque, on explicit fuel;
returns both so the caller can see the deque was exhausted. -/
def bfsLoop (g : Grafo V) : Nat → List V → List V → List V × List V
  | 0, vis, fila => (vis, fila)
  | fuel + 1, vis, fila =>
    match fila with
    | [] => (vis, fila)
    | atual :: resto =>
      if atual ∈ vis then bfsLoop g fuel vis resto
      else bfsLoop g fuel (vis ++ [atual]) (resto ++ (vizinhos g atual).map Prod.fst)

/-- Vertices not yet visited that could still enter the traversal. -/
def bfsPend (g : Grafo V) (vis fila : List V) : Nat :=
  ((targetsOf g ++ fila).toFinset \ vis.toFinset).card

/-- Sufficient fuel for a breadth-first traversal from `inicio`. -/
def bfsFuel (g : Grafo V) (inicio : V) : Nat :=
  ((targetsOf g).length + 1) * bfsPend g [] [inicio] + 2

/-- The `bfs(grafo, inicio)` helper of `_eh_fortemente_conexo`. -/
def bfs (g : Grafo V) (inicio : V) : List V := (bfsLoop g (bfsFuel g inicio) [] [inicio]).1

/-- `reverso[v][u] = peso`: one assignment while building the transpose. -/
def setEdge (m : Grafo V) (v u : V) (w : Nat) : Grafo V := setA m v (setA (vizinhos m v) u w)

/-- The transposed graph, built edge by edge as in `_eh_fortemente_conexo`. -/
def transposeG (g : Grafo V) : Grafo V :=
  g.foldl (fun acc e => e.2.foldl (fun acc2 vp => setEdge acc2 vp.1 e.1 vp.2) acc) []

/-- Python `==` between two collections regarded as sets. -/
def eqSet (a b : List V) : Bool :=
  a.all (fun x => decide (x ∈ b)) && b.all (fun x => decide (x ∈ a))

/-- `_eh_fortemente_conexo`: true on the empty vertex set, otherwise both
breadth-first traversals (forward and on the transpose) from the first
available vertex must visit exactly the vertex set. -/
def ehFortementeConexo (st : Estado V) : Bool :=
  match st.vertices with
  | [] => true
  | v0 :: _ =>
    let normal := bfs st.grafo v0
    let inverso := bfs (transposeG st.grafo) v0
    eqSet normal st.vertices && eqSet inverso st.vertices

/-! ## Degrees, Eulerian check, rankings, diameter -/

/-- Weighted out-degree: `sum(self.grafo[v].values())`, `0` if absent. -/
def grauSaidaV (g : Grafo V) (v : V) : Nat := sumW (vizinhos g v)

/-- Weighted in-degree of `v`: the value the accumulated `grau_entrada`
dict holds for `v` (`0` when `v` received nothing). -/
def grauEntradaV (g : Grafo V) (v : V) : Nat :=
  (g.map (fun e => ((e.2.filter (fun vp => decide (vp.1 = v))).map Prod.snd).sum)).sum

/-- `grafo_euleriano()`: balance violations in vertex order, then the
connectivity complaint; the verdict is `problemas == []`. -/
def grafoEuleriano [ToString V] (st : Estado V) : Bool × List String :=
  let inconsistencias :=
    (st.vertices.filter
      (fun v => decide (grauEntradaV st.grafo v ≠ grauSaidaV st.grafo v))).map
      (fun v => "   - " ++ toString v ++ " → entrada: " ++
        toString (grauEntradaV st.grafo v) ++ ", saída: " ++ toString (grauSaidaV st.grafo v))
  let problemas :=
    (if inconsistencias.isEmpty then []
     else "❌ Grau de entrada ≠ grau de saída em alguns vértices:" :: inconsistencias) ++
    (if ehFortementeConexo st then [] else ["❌ O grafo não é fortemente conexo."])
  (problemas.isEmpty, problemas)

/-- The descending order Python's `sorted(..., reverse=True)` produces on
`(degree, vertex)` tuples: larger degree first, ties by larger vertex. -/
def tupleGe (a b : Nat × V) : Bool :=
  decide (b.1 < a.1) || (decide (a.1 = b.1) && decide (b.2 ≤ a.2))

/-- Insertion step of the descending sort. -/
def insereOrdenado (p : Nat × V) : List (Nat × V) → List (Nat × V)
  | [] => [p]
  | q :: t => if tupleGe p q then p :: q :: t else q :: insereOrdenado p t

/-- `sorted(..., reverse=True)` on `(degree, vertex)` tuples.  On the
duplicate-free tuple lists the program builds, `tupleGe` is a total order,
so any comparison sort — Python Timsort included — produces this list. -/
def ordenaDesc : List (Nat × V) → List (Nat × V)
  | [] => []
  | p :: t => insereOrdenado p (ordenaDesc t)

/-- `top_20_grau_saida()`. -/
def top20GrauSaida (g : Grafo V) : List (Nat × V) :=
  (ordenaDesc (g.map (fun e => (sumW e.2, e.1)))).take 20

/-- `top_20_grau_entrada()`: only vertices the `graus` dict accumulated,
i.e. vertices with at least one incoming edge. -/
def top20GrauEntrada (g : Grafo V) : List (Nat × V) :=
  (ordenaDesc ((targetsOf g).dedup.map (fun v => (grauEntradaV g v, v)))).take 20

/-- `calcular_diametro()`: maximum settled distance over all sources, with
the recorded path of the first pair attaining it. -/
def calcularDiametro (st : Estado V) : Nat × List V :=
  st.vertices.foldl
    (fun acc origem =>
      let dc := dijkstraComCaminhos st.grafo origem
      dc.1.foldl (fun acc2 p => if acc2.1 < p.2 then (p.2, (lookupA dc.2 p.1).getD []) else acc2) acc)
    (0, [])

/-! ## Concrete states used by examples and counterexamples -/

/-- Path graph `a →(3) b →(4) c` from the spec, on vertices `0, 1, 2`. -/
def gCaminho : Grafo Nat := [(0, [(1, 3)]), (1, [(2, 4)]), (2, [])]

/-- The directed triangle `0 → 1 → 2 → 0`, each edge of weight 1. -/
def estCiclo3 : Estado Nat := construir [(0, 1), (1, 2), (2, 0)]

/-- A heavy direct edge `0 →(5) 1` bypassed by the cheaper `0 → 2 → 1`. -/
def estPesado : Estado Nat :=
  construir [(0, 1), (0, 1), (0, 1), (0, 1), (0, 1), (0, 2), (2, 1)]

/-- Twenty-one distinct senders, one common recipient `0`. -/
def estFunil : Estado Nat := construir ((List.range 21).map (fun i => (i + 1, 0)))

/-! ## Loop invariants of the two shortest-path searches -/

/-- Invariant of the bounded search `vertices_ate_distancia`:
the origin is settled at `0`; keys are duplicate free; every settled value
is within the bound and dominated by a real walk; every queued pair points
at a settled vertex whose current value is at most the queued one; and
every settled vertex either still has its current value pending in the
queue or has all its outgoing edges relaxed within the bound. -/
def InvB (g : Grafo V) (o : V) (D : Nat) (st : List (V × Nat) × List (Nat × V)) : Prop :=
  lookupA st.1 o = some 0 ∧
  (st.1.map Prod.fst).Nodup ∧
  (∀ v n, lookupA st.1 v = some n → n ≤ D ∧ ∃ c, c ≤ n ∧ HasWalk g o v c) ∧
  (∀ e ∈ st.2, ∃ m, lookupA st.1 e.2 = some m ∧ m ≤ e.1) ∧
  (∀ v n, lookupA st.1 v = some n →
    (n, v) ∈ st.2 ∨
    ∀ vp ∈ vizinhos g v, n + vp.2 ≤ D → ∃ m, lookupA st.1 vp.1 = some m ∧ m ≤ n + vp.2)

/-- Invariant of the unbounded search `_dijkstra_com_caminhos`: like `InvB`
without the bound, and every settled vertex carries a recorded path that is
a duplicate-free walk of weight exactly the settled value, all of whose
prefixes are themselves settled (`ClosedWalk`). -/
def InvD (g : Grafo V) (o : V) (st : DState V) : Prop :=
  lookupA st.1 o = some 0 ∧
  (st.1.map Prod.fst).Nodup ∧
  (st.2.1.map Prod.fst).Nodup ∧
  (∀ v, (lookupA st.2.1 v).isSome = true → (lookupA st.1 v).isSome = true) ∧
  (∀ v n, lookupA st.1 v = some n →
    ∃ l, lookupA st.2.1 v = some l ∧ ClosedWalk g o st.1 v l n) ∧
  (∀ e ∈ st.2.2, ∃ m, lookupA st.1 e.2 = some m ∧ m ≤ e.1) ∧
  (∀ v n, lookupA st.1 v = some n →
    (n, v) ∈ st.2.2 ∨
    ∀ vp ∈ vizinhos g v, ∃ m, lookupA st.1 vp.1 = some m ∧ m ≤ n + vp.2)

/-! # Theorems

First the library of facts about the embedded operations, then one theorem
per claim (with witnesses for the hypotheses-carrying ones). -/

theorem grafoBom_of_estadoBom {st : Estado V} (h : EstadoBom st) : GrafoBom st.grafo :=
  ⟨h.2.2.2.2.2.2.1, h.2.2.2.2.2.2.2⟩

theorem lookupA_mem {l : List (V × α)} {k : V} {v : α} (h : lookupA l k = some v) :
    (k, v) ∈ l := by
  induction l with
  | nil => simp [lookupA] at h
  | cons e t ih =>
    obtain ⟨k', v'⟩ := e
    by_cases hk : k' = k
    · subst hk
      rw [lookupA, if_pos rfl, Option.some.injEq] at h
      subst h
      exact List.mem_cons_self _ _
    · rw [lookupA, if_neg hk] at h
      exact List.mem_cons_of_mem _ (ih h)

theorem lookupA_isSome_iff {l : List (V × α)} {k : V} :
    (lookupA l k).isSome = true ↔ k ∈ l.map Prod.fst := by
  induction l with
  | nil => simp [lookupA]
  | cons e t ih =>
    obtain ⟨k', v'⟩ := e
    by_cases hk : k' = k
    · subst hk; simp [lookupA]
    · simp [lookupA, hk, ih, Ne.symm hk]

theorem lookupA_eq_none_iff {l : List (V × α)} {k : V} :
    lookupA l k = none ↔ k ∉ l.map Prod.fst := by
  rw [← lookupA_isSome_iff, ← Option.not_isSome_iff_eq_none]

theorem lookupA_of_mem_nodup {l : List (V × α)} {k : V} {v : α}
    (hnd : (l.map Prod.fst).Nodup) (h : (k, v) ∈ l) : lookupA l k = some v := by
  induction l with
  | nil => simp at h
  | cons e t ih =>
    obtain ⟨k', v'⟩ := e
    simp only [List.map_cons, List.nodup_cons] at hnd
    rcases List.mem_cons.mp h with h1 | h2
    · obtain ⟨hk, hv⟩ := Prod.mk.injEq .. ▸ h1.symm
      subst hk; subst hv
      rw [lookupA, if_pos rfl]
    · have hk : k' ≠ k := by
        intro hkk
        refine absurd ?_ hnd.1
        rw [hkk]
        exact (List.mem_map.mpr ⟨(k, v), h2, rfl⟩)
      rw [lookupA, if_neg hk]
      exact ih hnd.2 h2

theorem setA_lookup_self (l : List (V × α)) (k : V) (v : α) :
    lookupA (setA l k v) k = some v := by
  induction l with
  | nil => simp [setA, lookupA]
  | cons e t ih =>
    obtain ⟨k', v'⟩ := e
    by_cases hk : k' = k
    · simp [setA, hk, lookupA]
    · simp [setA, hk, lookupA, ih]

theorem setA_lookup_ne (l : List (V × α)) (k x : V) (v : α) (hx : x ≠ k) :
    lookupA (setA l k v) x = lookupA l x := by
  induction l with
  | nil => simp [setA, lookupA, Ne.symm hx]
  | cons e t ih =>
    obtain ⟨k', v'⟩ := e
    by_cases hk : k' = k
    · subst hk
      rw [setA, if_pos rfl, lookupA, if_neg hx.symm, lookupA, if_neg hx.symm]
    · rw [setA, if_neg hk]
      by_cases hx' : k' = x
      · rw [lookupA, if_pos hx', lookupA, if_pos hx']
      · rw [lookupA, if_neg hx', lookupA, if_neg hx', ih]

theorem setA_keys (l : List (V × α)) (k : V) (v : α) :
    (setA l k v).map Prod.fst = if k ∈ l.map Prod.fst then l.map Prod.fst
      else l.map Prod.fst ++ [k] := by
  induction l with
  | nil => simp [setA]
  | cons e t ih =>
    obtain ⟨k', v'⟩ := e
    by_cases hk : k' = k
    · subst hk; simp [setA]
    · simp only [setA, if_neg hk, List.map_cons, ih]
      by_cases hm : k ∈ t.map Prod.fst
      · simp [hm, Ne.symm hk]
      · simp [hm, Ne.symm hk]

theorem setA_keys_nodup {l : List (V × α)} (k : V) (v : α)
    (h : (l.map Prod.fst).Nodup) : ((setA l k v).map Prod.fst).Nodup := by
  rw [setA_keys]
  by_cases hm : k ∈ l.map Prod.fst
  · simpa [hm] using h
  · simp only [if_neg hm]
    refine List.Nodup.append h (List.nodup_singleton k) ?_
    intro x hx hxk
    rw [List.mem_singleton] at hxk
    subst hxk
    exact hm hx

theorem sumW_setA_some {adj : Adj V} {k : V} {w : Nat} (h : lookupA adj k = some w)
    (v : Nat) : sumW (setA adj k v) + w = sumW adj + v := by
  induction adj with
  | nil => simp [lookupA] at h
  | cons e t ih =>
    obtain ⟨k', w'⟩ := e
    by_cases hk : k' = k
    · subst hk
      simp [lookupA] at h
      subst h
      simp [setA, sumW]
      ring
    · simp [lookupA, hk] at h
      have := ih h
      simp [setA, hk, sumW] at this ⊢
      omega

theorem sumW_setA_none {adj : Adj V} {k : V} (h : lookupA adj k = none)
    (v : Nat) : sumW (setA adj k v) = sumW adj + v := by
  induction adj with
  | nil => simp [setA, sumW]
  | cons e t ih =>
    obtain ⟨k', w'⟩ := e
    by_cases hk : k' = k
    · subst hk; simp [lookupA] at h
    · rw [lookupA, if_neg hk] at h
      have := ih h
      rw [setA, if_neg hk]
      simp only [sumW, List.map_cons, List.sum_cons] at this ⊢
      omega

theorem mem_targetsOf_of_entry {g : Grafo V} {e : V × Adj V} {vp : V × Nat}
    (he : e ∈ g) (hvp : vp ∈ e.2) : vp.1 ∈ targetsOf g := by
  simp only [targetsOf, List.mem_flatten]
  exact ⟨e.2.map Prod.fst, List.mem_map.mpr ⟨e, he, rfl⟩, List.mem_map.mpr ⟨vp, hvp, rfl⟩⟩

theorem edge_target_mem {g : Grafo V} {u w : V} {p : Nat} (h : edge g u w p) :
    w ∈ targetsOf g := by
  unfold edge vizinhos at h
  cases hl : lookupA g u with
  | none => rw [hl] at h; simp at h
  | some adj =>
    rw [hl] at h
    simp only [Option.getD_some] at h
    exact mem_targetsOf_of_entry (lookupA_mem hl) h

theorem edge_weight_le_pesoTotal {g : Grafo V} {u w : V} {p : Nat} (h : edge g u w p) :
    p ≤ pesoTotal g := by
  unfold edge vizinhos at h
  cases hl : lookupA g u with
  | none => rw [hl] at h; simp at h
  | some adj =>
    rw [hl] at h
    simp only [Option.getD_some] at h
    have h1 : p ≤ sumW adj := by
      have : p ∈ adj.map Prod.snd := List.mem_map.mpr ⟨(w, p), h, rfl⟩
      exact List.single_le_sum (fun x _ => Nat.zero_le x) _ this
    have h2 : sumW adj ≤ pesoTotal g := by
      have : sumW adj ∈ g.map (fun e => sumW e.2) :=
        List.mem_map.mpr ⟨(u, adj), lookupA_mem hl, rfl⟩
      exact List.single_le_sum (fun x _ => Nat.zero_le x) _ this
    omega

theorem vizinhos_no_self {g : Grafo V} (hg : GrafoBom g) (u : V) :
    ∀ vp ∈ vizinhos g u, vp.1 ≠ u := by
  intro vp hvp
  unfold vizinhos at hvp
  cases hl : lookupA g u with
  | none => rw [hl] at hvp; simp at hvp
  | some adj =>
    rw [hl] at hvp
    simp only [Option.getD_some] at hvp
    exact hg.1 (u, adj) (lookupA_mem hl) vp hvp

theorem vizinhos_pos_weight {g : Grafo V} (hg : GrafoBom g) (u : V) :
    ∀ vp ∈ vizinhos g u, 1 ≤ vp.2 := by
  intro vp hvp
  unfold vizinhos at hvp
  cases hl : lookupA g u with
  | none => rw [hl] at hvp; simp at hvp
  | some adj =>
    rw [hl] at hvp
    simp only [Option.getD_some] at hvp
    exact hg.2 (u, adj) (lookupA_mem hl) vp hvp

/-! ## Weight accumulation (claim C7) -/

theorem inserirNVezes_succ_eq {a b : V} (hab : a ≠ b) (n : Nat) :
    inserirNVezes a b (n + 1) = ⟨[(a, [(b, n + 1)]), (b, [])], [a, b]⟩ := by
  induction n with
  | zero =>
    simp only [inserirNVezes, estadoVazio, adicionarAresta, if_neg (Ne.symm hab)]
    simp [vizinhos, lookupA, setA, addVertice, hab, Ne.symm hab]
  | succ n ih =>
    show adicionarAresta (inserirNVezes a b (n + 1)) a b = _
    rw [ih]
    simp only [adicionarAresta, if_neg (Ne.symm hab)]
    simp [vizinhos, lookupA, setA, addVertice, hab, Ne.symm hab]

/-- C7: inserting `(a, b)` with `a ≠ b` exactly `n ≥ 1` times into the empty
graph produces the state whose single edge is `(a, b)` with weight exactly
`n` (plus the mandatory empty adjacency entry for `b`). -/
theorem c7_peso_acumulado {a b : V} (hab : a ≠ b) {n : Nat} (hn : 1 ≤ n) :
    (inserirNVezes a b n).grafo = [(a, [(b, n)]), (b, [])] ∧
    (inserirNVezes a b n).vertices = [a, b] := by
  obtain ⟨m, rfl⟩ : ∃ m, n = m + 1 := ⟨n - 1, by omega⟩
  rw [inserirNVezes_succ_eq hab]
  exact ⟨rfl, rfl⟩

/-- Witness for C7 at a concrete input: three insertions of `(0, 1)`. -/
theorem c7_peso_acumulado_witness :
    (0 : Nat) ≠ 1 ∧ 1 ≤ 3 ∧
    (inserirNVezes (0 : Nat) 1 3).grafo = [(0, [(1, 3)]), (1, [])] ∧
    (inserirNVezes (0 : Nat) 1 3).vertices = [0, 1] :=
  ⟨by decide, by decide, c7_peso_acumulado (by decide) (by decide)⟩

/-! ## Preservation of well-formedness by `_adicionar_aresta` -/

theorem mem_setA {l : List (V × α)} {k : V} {v : α} {e : V × α} (h : e ∈ setA l k v) :
    e ∈ l ∨ e = (k, v) := by
  induction l with
  | nil => simp [setA] at h; simp [h]
  | cons e' t ih =>
    obtain ⟨k', v'⟩ := e'
    by_cases hk : k' = k
    · subst hk
      rw [setA, if_pos rfl] at h
      rcases List.mem_cons.mp h with h1 | h2
      · exact Or.inr h1
      · exact Or.inl (List.mem_cons_of_mem _ h2)
    · rw [setA, if_neg hk] at h
      rcases List.mem_cons.mp h with h1 | h2
      · exact Or.inl (h1 ▸ List.mem_cons_self _ _)
      · rcases ih h2 with h3 | h3
        · exact Or.inl (List.mem_cons_of_mem _ h3)
        · exact Or.inr h3

theorem mem_keys_setA {l : List (V × α)} {x k : V} (v : α) (h : x ∈ l.map Prod.fst) :
    x ∈ (setA l k v).map Prod.fst := by
  rw [setA_keys]
  by_cases hm : k ∈ l.map Prod.fst
  · simpa [hm] using h
  · simp [hm, h]

theorem self_mem_keys_setA (l : List (V × α)) (k : V) (v : α) :
    k ∈ (setA l k v).map Prod.fst := by
  rw [← lookupA_isSome_iff, setA_lookup_self]
  rfl

theorem mem_addVertice_iff {l : List V} {x v : V} :
    x ∈ addVertice l v ↔ x ∈ l ∨ x = v := by
  unfold addVertice
  by_cases hm : v ∈ l
  · simp only [if_pos hm]
    constructor
    · exact Or.inl
    · rintro (h | rfl) <;> [exact h; exact hm]
  · simp [if_neg hm]

theorem addVertice_nodup {l : List V} (v : V) (h : l.Nodup) : (addVertice l v).Nodup := by
  unfold addVertice
  by_cases hm : v ∈ l
  · simpa [hm] using h
  · simp only [if_neg hm]
    refine List.Nodup.append h (List.nodup_singleton v) ?_
    intro x hx hxv
    rw [List.mem_singleton] at hxv
    subst hxv
    exact hm hx

theorem estadoBom_adicionar {st : Estado V} (h : EstadoBom st) (de para : V) :
    EstadoBom (adicionarAresta st de para) := by
  obtain ⟨hndV, hndK, hndA, hKV, hVK, hTV, hNS, hPW⟩ := h
  by_cases hsame : para = de
  · simpa [adicionarAresta, hsame] using
      ⟨hndV, hndK, hndA, hKV, hVK, hTV, hNS, hPW⟩
  · simp only [adicionarAresta, if_neg hsame]
    set adjDe := vizinhos st.grafo de with hadjDe
    have hAdjOld : ∀ vp ∈ adjDe, vp.1 ∈ st.vertices ∧ vp.1 ≠ de ∧ 1 ≤ vp.2 := by
      intro vp hvp
      rw [hadjDe] at hvp
      unfold vizinhos at hvp
      cases hl : lookupA st.grafo de with
      | none => rw [hl] at hvp; simp at hvp
      | some adj =>
        rw [hl] at hvp
        simp only [Option.getD_some] at hvp
        exact ⟨hTV _ (lookupA_mem hl) _ hvp, hNS _ (lookupA_mem hl) _ hvp,
          hPW _ (lookupA_mem hl) _ hvp⟩
    have hAdjNodup : (adjDe.map Prod.fst).Nodup := by
      rw [hadjDe]
      unfold vizinhos
      cases hl : lookupA st.grafo de with
      | none => simp
      | some adj =>
        simpa using hndA _ (lookupA_mem hl)
    -- the updated adjacency entry of `de`
    set novoPeso : Nat := match lookupA adjDe para with
      | some w => w + 1
      | none => 1 with hnp
    have hg1eq : (match lookupA adjDe para with
        | some w => setA st.grafo de (setA adjDe para (w + 1))
        | none => setA st.grafo de (setA adjDe para 1)) =
        setA st.grafo de (setA adjDe para novoPeso) := by
      rw [hnp]
      cases lookupA adjDe para <;> rfl
    rw [hg1eq]
    set novoAdj := setA adjDe para novoPeso with hna
    set g1 := setA st.grafo de novoAdj with hg1
    set vs := addVertice (addVertice st.vertices de) para with hvs
    have hmemVs : ∀ x, x ∈ vs ↔ x ∈ st.vertices ∨ x = de ∨ x = para := by
      intro x
      rw [hvs, mem_addVertice_iff, mem_addVertice_iff, or_assoc]
    have hNovoAdj : ∀ vp ∈ novoAdj, (vp ∈ adjDe ∨ vp = (para, novoPeso)) := fun vp h => mem_setA h
    have hG1 : ∀ e ∈ g1, e ∈ st.grafo ∨ e = (de, novoAdj) := fun e h => mem_setA h
    set g2 := if (lookupA g1 para).isSome = true then g1 else g1 ++ [(para, [])] with hg2
    have hG2 : ∀ e ∈ g2, e ∈ st.grafo ∨ e = (de, novoAdj) ∨ e = (para, []) := by
      intro e he
      rw [hg2] at he
      by_cases hs : (lookupA g1 para).isSome = true
      · rw [if_pos hs] at he
        rcases hG1 e he with h1 | h1
        · exact Or.inl h1
        · exact Or.inr (Or.inl h1)
      · rw [if_neg hs] at he
        rcases List.mem_append.mp he with h1 | h1
        · rcases hG1 e h1 with h2 | h2
          · exact Or.inl h2
          · exact Or.inr (Or.inl h2)
        · rw [List.mem_singleton] at h1
          exact Or.inr (Or.inr h1)
    refine ⟨?_, ?_, ?_, ?_, ?_, ?_, ?_, ?_⟩
    · -- vertices nodup
      exact addVertice_nodup _ (addVertice_nodup _ hndV)
    · -- keys nodup
      have hk1 : (g1.map Prod.fst).Nodup := setA_keys_nodup _ _ hndK
      rw [hg2]
      by_cases hs : (lookupA g1 para).isSome = true
      · rw [if_pos hs]; exact hk1
      · rw [if_neg hs]
        rw [List.map_append]
        refine List.Nodup.append hk1 (by simp) ?_
        intro x hx hxp
        simp only [List.map_cons, List.map_nil, List.mem_singleton] at hxp
        subst hxp
        rw [← lookupA_isSome_iff] at hx
        simp [hx] at hs
    · -- per-entry adjacency keys nodup
      intro e he
      rcases hG2 e he with h1 | h1 | h1
      · exact hndA e h1
      · subst h1
        exact setA_keys_nodup _ _ hAdjNodup
      · subst h1
        simp
    · -- entry keys are vertices
      intro e he
      rcases hG2 e he with h1 | h1 | h1
      · exact (hmemVs _).mpr (Or.inl (hKV e h1))
      · subst h1
        exact (hmemVs _).mpr (Or.inr (Or.inl rfl))
      · subst h1
        exact (hmemVs _).mpr (Or.inr (Or.inr rfl))
    · -- every vertex has an entry
      intro v hv
      have hkeysub : ∀ x, x ∈ g1.map Prod.fst → x ∈ g2.map Prod.fst := by
        intro x hx
        rw [hg2]
        by_cases hs : (lookupA g1 para).isSome = true
        · rw [if_pos hs]; exact hx
        · rw [if_neg hs, List.map_append]
          exact List.mem_append.mpr (Or.inl hx)
      rcases (hmemVs v).mp hv with h1 | h1 | h1
      · exact hkeysub v (mem_keys_setA _ (hVK v h1))
      · subst h1
        exact hkeysub v (self_mem_keys_setA _ _ _)
      · rw [h1, hg2]
        by_cases hs : (lookupA g1 para).isSome = true
        · rw [if_pos hs, ← lookupA_isSome_iff]
          exact hs
        · rw [if_neg hs, List.map_append]
          simp
    · -- edge targets are vertices
      intro e he vp hvp
      rcases hG2 e he with h1 | h1 | h1
      · exact (hmemVs _).mpr (Or.inl (hTV e h1 vp hvp))
      · subst h1
        rcases hNovoAdj vp hvp with h2 | h2
        · exact (hmemVs _).mpr (Or.inl (hAdjOld vp h2).1)
        · subst h2
          exact (hmemVs _).mpr (Or.inr (Or.inr rfl))
      · subst h1
        simp at hvp
    · -- no self-loops
      intro e he vp hvp
      rcases hG2 e he with h1 | h1 | h1
      · exact hNS e h1 vp hvp
      · subst h1
        rcases hNovoAdj vp hvp with h2 | h2
        · exact (hAdjOld vp h2).2.1
        · subst h2
          exact hsame
      · subst h1
        simp at hvp
    · -- positive weights
      intro e he vp hvp
      rcases hG2 e he with h1 | h1 | h1
      · exact hPW e h1 vp hvp
      · subst h1
        rcases hNovoAdj vp hvp with h2 | h2
        · exact (hAdjOld vp h2).2.2
        · subst h2
          rw [hnp]
          cases lookupA adjDe para <;> simp
      · subst h1
        simp at hvp

theorem estadoBom_vazio : EstadoBom (estadoVazio (V := V)) := by
  refine ⟨?_, ?_, ?_, ?_, ?_, ?_, ?_, ?_⟩ <;> simp [estadoVazio]

theorem estadoBom_construir (pares : List (V × V)) : EstadoBom (construir pares) := by
  unfold construir
  generalize hst : (estadoVazio (V := V)) = st0
  have h0 : EstadoBom st0 := hst ▸ estadoBom_vazio
  clear hst
  induction pares generalizing st0 with
  | nil => exact h0
  | cons p t ih => exact ih _ (estadoBom_adicionar h0 p.1 p.2)

/-! ## The degree balance law (claim C8) -/

theorem pesoTotal_setA_some {g : Grafo V} {k : V} {adj : Adj V}
    (h : lookupA g k = some adj) (adj' : Adj V) :
    pesoTotal (setA g k adj') + sumW adj = pesoTotal g + sumW adj' := by
  induction g with
  | nil => simp [lookupA] at h
  | cons e t ih =>
    obtain ⟨k', a'⟩ := e
    by_cases hk : k' = k
    · subst hk
      rw [lookupA, if_pos rfl, Option.some.injEq] at h
      subst h
      rw [setA, if_pos rfl]
      simp only [pesoTotal, List.map_cons, List.sum_cons]
      ring
    · rw [lookupA, if_neg hk] at h
      have := ih h
      rw [setA, if_neg hk]
      simp only [pesoTotal, List.map_cons, List.sum_cons] at this ⊢
      omega

theorem pesoTotal_setA_none {g : Grafo V} {k : V} (h : lookupA g k = none)
    (adj' : Adj V) : pesoTotal (setA g k adj') = pesoTotal g + sumW adj' := by
  induction g with
  | nil => simp [setA, pesoTotal, sumW]
  | cons e t ih =>
    obtain ⟨k', a'⟩ := e
    by_cases hk : k' = k
    · subst hk; simp [lookupA] at h
    · rw [lookupA, if_neg hk] at h
      have := ih h
      rw [setA, if_neg hk]
      simp only [pesoTotal, List.map_cons, List.sum_cons] at this ⊢
      omega

theorem pesoTotal_append_empty (g : Grafo V) (v : V) :
    pesoTotal (g ++ [(v, [])]) = pesoTotal g := by
  simp [pesoTotal, sumW]

theorem pesoTotal_adicionar (st : Estado V) {de para : V} (h : de ≠ para) :
    pesoTotal (adicionarAresta st de para).grafo = pesoTotal st.grafo + 1 := by
  simp only [adicionarAresta, if_neg (Ne.symm h)]
  set adjDe := vizinhos st.grafo de with hadjDe
  have hsum : ∀ w, (lookupA adjDe para = some w →
        sumW (setA adjDe para (w + 1)) = sumW adjDe + 1) := by
    intro w hw
    have := sumW_setA_some hw (w + 1)
    omega
  have hsum0 : lookupA adjDe para = none → sumW (setA adjDe para 1) = sumW adjDe + 1 := by
    intro hw
    have := sumW_setA_none hw 1
    omega
  have houter : ∀ adj' : Adj V, sumW adj' = sumW adjDe + 1 →
      pesoTotal (setA st.grafo de adj') = pesoTotal st.grafo + 1 := by
    intro adj' hadj'
    rw [hadjDe] at hadj'
    unfold vizinhos at hadj'
    cases hl : lookupA st.grafo de with
    | none =>
      rw [hl] at hadj'
      simp only [Option.getD_none, sumW, List.map_nil, List.sum_nil] at hadj'
      rw [pesoTotal_setA_none hl]
      unfold sumW
      omega
    | some adj =>
      rw [hl] at hadj'
      simp only [Option.getD_some] at hadj'
      have := pesoTotal_setA_some hl adj'
      omega
  cases hw : lookupA adjDe para with
  | some w =>
    have hmain := houter _ (hsum w hw)
    by_cases hs : (lookupA (setA st.grafo de (setA adjDe para (w + 1))) para).isSome = true
    · simpa [hs] using hmain
    · simp only [Bool.not_eq_true] at hs
      simp only [hs, Bool.false_eq_true, if_false, pesoTotal_append_empty]
      exact hmain
  | none =>
    have hmain := houter _ (hsum0 hw)
    by_cases hs : (lookupA (setA st.grafo de (setA adjDe para 1)) para).isSome = true
    · simpa [hs] using hmain
    · simp only [Bool.not_eq_true] at hs
      simp only [hs, Bool.false_eq_true, if_false, pesoTotal_append_empty]
      exact hmain

theorem pesoTotal_foldl (pares : List (V × V)) :
    ∀ st0 : Estado V, (∀ p ∈ pares, p.1 ≠ p.2) →
    pesoTotal ((pares.foldl (fun s p => adicionarAresta s p.1 p.2) st0)).grafo =
      pesoTotal st0.grafo + pares.length := by
  induction pares with
  | nil => intro st0 _; simp
  | cons p t ih =>
    intro st0 h
    simp only [List.foldl_cons, List.length_cons]
    have hp : p.1 ≠ p.2 := h p (List.mem_cons_self _ _)
    rw [ih _ (fun q hq => h q (List.mem_cons_of_mem _ hq)), pesoTotal_adicionar st0 hp]
    omega

theorem pesoTotal_construir {pares : List (V × V)} (h : ∀ p ∈ pares, p.1 ≠ p.2) :
    pesoTotal (construir pares).grafo = pares.length := by
  unfold construir
  rw [pesoTotal_foldl pares estadoVazio h]
  simp [estadoVazio, pesoTotal]

theorem sum_map_add (l : List α) (f g : α → Nat) :
    (l.map (fun a => f a + g a)).sum = (l.map f).sum + (l.map g).sum := by
  induction l with
  | nil => simp
  | cons a t ih => simp [ih]; ring

theorem sum_map_comm (l : List α) (m : List β) (f : α → β → Nat) :
    (l.map (fun a => (m.map (fun b => f a b)).sum)).sum =
    (m.map (fun b => (l.map (fun a => f a b)).sum)).sum := by
  induction l with
  | nil => simp
  | cons a t ih =>
    simp only [List.map_cons, List.sum_cons, ih, ← sum_map_add]

theorem sum_if_not_mem (l : List V) {t : V} (ht : t ∉ l) (w : Nat) :
    (l.map (fun v => if t = v then w else 0)).sum = 0 := by
  induction l with
  | nil => simp
  | cons a r ih =>
    have h1 : t ≠ a := fun h => ht (h ▸ List.mem_cons_self _ _)
    have h2 : t ∉ r := fun h => ht (List.mem_cons_of_mem _ h)
    simp [h1, ih h2]

theorem sum_if_mem {l : List V} (hnd : l.Nodup) {t : V} (ht : t ∈ l) (w : Nat) :
    (l.map (fun v => if t = v then w else 0)).sum = w := by
  induction l with
  | nil => simp at ht
  | cons a r ih =>
    rw [List.nodup_cons] at hnd
    rcases List.mem_cons.mp ht with h1 | h1
    · subst h1
      simp [sum_if_not_mem r hnd.1 w]
    · have h2 : t ≠ a := fun h => hnd.1 (h ▸ h1)
      simp [h2, ih hnd.2 h1]

theorem filter_sum_eq_if (adj : Adj V) (v : V) :
    ((adj.filter (fun vp => decide (vp.1 = v))).map Prod.snd).sum =
    (adj.map (fun vp => if vp.1 = v then vp.2 else 0)).sum := by
  induction adj with
  | nil => simp
  | cons vp t ih =>
    by_cases hv : vp.1 = v
    · simp [List.filter_cons, hv, ih]
    · simp [List.filter_cons, hv, ih]

theorem sum_entrada_entry {l : List V} (hnd : l.Nodup) {adj : Adj V}
    (hsub : ∀ vp ∈ adj, vp.1 ∈ l) :
    (l.map (fun v => ((adj.filter (fun vp => decide (vp.1 = v))).map Prod.snd).sum)).sum
      = sumW adj := by
  have h1 : (l.map (fun v => ((adj.filter (fun vp => decide (vp.1 = v))).map Prod.snd).sum)).sum
      = (l.map (fun v => (adj.map (fun vp => if vp.1 = v then vp.2 else 0)).sum)).sum := by
    refine congrArg List.sum (List.map_congr_left ?_)
    intro v _
    exact filter_sum_eq_if adj v
  rw [h1, sum_map_comm]
  unfold sumW
  refine congrArg List.sum (List.map_congr_left ?_)
  intro vp hvp
  exact sum_if_mem hnd (hsub vp hvp) vp.2

theorem vertices_perm_keys {st : Estado V} (h : EstadoBom st) :
    st.vertices.Perm (st.grafo.map Prod.fst) := by
  obtain ⟨hndV, hndK, _, hKV, hVK, _, _, _⟩ := h
  refine List.perm_of_nodup_nodup_toFinset_eq hndV hndK ?_
  ext x
  simp only [List.mem_toFinset]
  constructor
  · exact hVK x
  · intro hx
    obtain ⟨e, he, rfl⟩ := List.mem_map.mp hx
    exact hKV e he

theorem somaSaida_eq_pesoTotal {st : Estado V} (h : EstadoBom st) :
    (st.vertices.map (grauSaidaV st.grafo)).sum = pesoTotal st.grafo := by
  have hperm := (vertices_perm_keys h).map (grauSaidaV st.grafo)
  rw [hperm.sum_eq, List.map_map]
  unfold pesoTotal
  refine congrArg List.sum (List.map_congr_left ?_)
  intro e he
  have : lookupA st.grafo e.1 = some e.2 := lookupA_of_mem_nodup h.2.1 he
  simp [grauSaidaV, vizinhos, this]

theorem somaEntrada_eq_pesoTotal {st : Estado V} (h : EstadoBom st) :
    (st.vertices.map (grauEntradaV st.grafo)).sum = pesoTotal st.grafo := by
  unfold grauEntradaV
  rw [sum_map_comm]
  unfold pesoTotal
  refine congrArg List.sum (List.map_congr_left ?_)
  intro e he
  exact sum_entrada_entry h.1 (fun vp hvp => h.2.2.2.2.2.1 e he vp hvp)

/-- C8: over any ingestion sequence free of self-pairs, the vertex-summed
weighted out-degree equals the vertex-summed weighted in-degree, and both
equal the number of insertions (the total inserted weight). -/
theorem c8_lei_do_balanco {pares : List (V × V)} (h : ∀ p ∈ pares, p.1 ≠ p.2) :
    ((construir pares).vertices.map (grauSaidaV (construir pares).grafo)).sum =
      ((construir pares).vertices.map (grauEntradaV (construir pares).grafo)).sum ∧
    ((construir pares).vertices.map (grauSaidaV (construir pares).grafo)).sum =
      pares.length := by
  have hbom := estadoBom_construir pares
  have h1 := somaSaida_eq_pesoTotal hbom
  have h2 := somaEntrada_eq_pesoTotal hbom
  have h3 := pesoTotal_construir h
  exact ⟨h1.trans h2.symm, h1.trans h3⟩

/-! ## Priority-queue and summation helpers -/

theorem minEntry_mem (e : Nat × V) (xs : List (Nat × V)) : minEntry e xs ∈ e :: xs := by
  induction xs generalizing e with
  | nil => simp [minEntry]
  | cons x t ih =>
    rw [minEntry]
    rcases List.mem_cons.mp (ih (if x.1 < e.1 ∨ (x.1 = e.1 ∧ x.2 < e.2) then x else e)) with h | h
    · rw [h]
      by_cases hc : x.1 < e.1 ∨ (x.1 = e.1 ∧ x.2 < e.2)
      · rw [if_pos hc]
        exact List.mem_cons_of_mem _ (List.mem_cons_self _ _)
      · rw [if_neg hc]
        exact List.mem_cons_self _ _
    · exact List.mem_cons_of_mem _ (List.mem_cons_of_mem _ h)

theorem minEntry_fst_le (e : Nat × V) (xs : List (Nat × V)) :
    (minEntry e xs).1 ≤ e.1 ∧ ∀ x ∈ xs, (minEntry e xs).1 ≤ x.1 := by
  induction xs generalizing e with
  | nil => simp [minEntry]
  | cons x t ih =>
    rw [minEntry]
    by_cases hc : x.1 < e.1 ∨ (x.1 = e.1 ∧ x.2 < e.2)
    · rw [if_pos hc]
      obtain ⟨h1, h2⟩ := ih x
      have hxe : x.1 ≤ e.1 := by rcases hc with h | h; omega; omega
      refine ⟨le_trans h1 hxe, ?_⟩
      intro y hy
      rcases List.mem_cons.mp hy with h | h
      · rw [h]; exact h1
      · exact h2 y h
    · rw [if_neg hc]
      obtain ⟨h1, h2⟩ := ih e
      have hex : e.1 ≤ x.1 := by
        rcases Nat.lt_or_ge x.1 e.1 with h | h
        · exact absurd (Or.inl h) hc
        · exact h
      refine ⟨h1, ?_⟩
      intro y hy
      rcases List.mem_cons.mp hy with h | h
      · rw [h]; exact le_trans h1 hex
      · exact h2 y h

theorem popMin_none_iff {l : List (Nat × V)} : popMin l = none ↔ l = [] := by
  cases l <;> simp [popMin]

theorem popMin_some {l : List (Nat × V)} {m : Nat × V} {r : List (Nat × V)}
    (h : popMin l = some (m, r)) : m ∈ l ∧ r = l.erase m ∧ (∀ e ∈ l, m.1 ≤ e.1) := by
  cases l with
  | nil => simp [popMin] at h
  | cons x xs =>
    simp only [popMin, Option.some.injEq, Prod.mk.injEq] at h
    obtain ⟨hm, hr⟩ := h
    subst hm
    refine ⟨minEntry_mem x xs, hr.symm, ?_⟩
    intro e he
    rcases List.mem_cons.mp he with h | h
    · rw [h]; exact (minEntry_fst_le x xs).1
    · exact (minEntry_fst_le x xs).2 e h

theorem popMin_length {l : List (Nat × V)} {m : Nat × V} {r : List (Nat × V)}
    (h : popMin l = some (m, r)) : r.length + 1 = l.length := by
  obtain ⟨hm, hr, _⟩ := popMin_some h
  rw [hr, List.length_erase_of_mem hm]
  have : 1 ≤ l.length := List.length_pos.mpr (List.ne_nil_of_mem hm)
  omega

theorem mem_erase_of_mem_of_ne {l : List (Nat × V)} {x y : Nat × V}
    (hx : x ∈ l) (hxy : x ≠ y) : x ∈ l.erase y :=
  (List.mem_erase_of_ne hxy).mpr hx

theorem sum_le_sum_of_le {l : List α} {f g : α → Nat} (h : ∀ x ∈ l, f x ≤ g x) :
    (l.map f).sum ≤ (l.map g).sum := by
  induction l with
  | nil => simp
  | cons a t ih =>
    simp only [List.map_cons, List.sum_cons]
    have := ih (fun x hx => h x (List.mem_cons_of_mem _ hx))
    have := h a (List.mem_cons_self _ _)
    omega

theorem sum_lt_sum_of_mem {l : List α} {f g : α → Nat} (h : ∀ x ∈ l, f x ≤ g x)
    {a : α} (ha : a ∈ l) (hfa : f a < g a) : (l.map f).sum < (l.map g).sum := by
  induction l with
  | nil => simp at ha
  | cons b t ih =>
    simp only [List.map_cons, List.sum_cons]
    rcases List.mem_cons.mp ha with h1 | h1
    · subst h1
      have := sum_le_sum_of_le (fun x hx => h x (List.mem_cons_of_mem _ hx))
      omega
    · have := ih (fun x hx => h x (List.mem_cons_of_mem _ hx)) h1
      have := h b (List.mem_cons_self _ _)
      omega

/-! ## Walk facts -/

theorem hasWalk_snoc {g : Grafo V} {o u v : V} {c p : Nat}
    (h : HasWalk g o u c) (he : edge g u v p) : HasWalk g o v (c + p) := by
  obtain ⟨l, hl⟩ := h
  exact ⟨l ++ [v], IsWalk.snoc hl he⟩

theorem walk_closed_bounded {g : Grafo V} {o : V} {D : Nat} {dists : List (V × Nat)}
    (ho : lookupA dists o = some 0)
    (hcl : ∀ v n, lookupA dists v = some n →
      ∀ vp ∈ vizinhos g v, n + vp.2 ≤ D → ∃ m, lookupA dists vp.1 = some m ∧ m ≤ n + vp.2)
    {v : V} {l : List V} {c : Nat} (hw : IsWalk g o v l c) (hc : c ≤ D) :
    ∃ m, lookupA dists v = some m ∧ m ≤ c := by
  induction hw with
  | refl => exact ⟨0, ho, le_refl 0⟩
  | @snoc u w l' c' p hwalk hedge ih =>
    have hc' : c' ≤ D := le_trans (Nat.le_add_right c' p) hc
    obtain ⟨m, hm, hmle⟩ := ih hc'
    obtain ⟨m', hm', hmle'⟩ := hcl u m hm (w, p) hedge (by omega)
    exact ⟨m', hm', by omega⟩

theorem walk_closed_unbounded {g : Grafo V} {o : V} {dists : List (V × Nat)}
    (ho : lookupA dists o = some 0)
    (hcl : ∀ v n, lookupA dists v = some n →
      ∀ vp ∈ vizinhos g v, ∃ m, lookupA dists vp.1 = some m ∧ m ≤ n + vp.2)
    {v : V} {l : List V} {c : Nat} (hw : IsWalk g o v l c) :
    ∃ m, lookupA dists v = some m ∧ m ≤ c := by
  induction hw with
  | refl => exact ⟨0, ho, le_refl 0⟩
  | @snoc u w l' c' p hwalk hedge ih =>
    obtain ⟨m, hm, hmle⟩ := ih
    obtain ⟨m', hm', hmle'⟩ := hcl u m hm (w, p) hedge
    exact ⟨m', hm', by omega⟩

theorem closedWalk_isWalk {g : Grafo V} {o : V} {dists : List (V × Nat)} {v : V}
    {l : List V} {c : Nat} (h : ClosedWalk g o dists v l c) : IsWalk g o v l c := by
  induction h with
  | refl _ => exact IsWalk.refl
  | snoc _ hedge _ _ ih => exact IsWalk.snoc ih hedge

theorem closedWalk_nodup {g : Grafo V} {o : V} {dists : List (V × Nat)} {v : V}
    {l : List V} {c : Nat} (h : ClosedWalk g o dists v l c) : l.Nodup ∧ v ∈ l := by
  induction h with
  | refl _ => simp
  | @snoc u w l' c' p _ _ hnotmem _ ih =>
    refine ⟨?_, by simp⟩
    rw [List.nodup_append]
    exact ⟨ih.1, List.nodup_singleton w, by
      intro a ha hb
      rw [List.mem_singleton] at hb
      subst hb
      exact hnotmem ha⟩

theorem closedWalk_mem_lookup {g : Grafo V} {o : V} {dists : List (V × Nat)} {v : V}
    {l : List V} {c : Nat} (h : ClosedWalk g o dists v l c) :
    ∀ x ∈ l, ∃ m, lookupA dists x = some m ∧ m ≤ c := by
  induction h with
  | refl h0 =>
    intro x hx
    rw [List.mem_singleton] at hx
    subst hx
    exact ⟨0, h0, le_refl 0⟩
  | @snoc u w l' c' p _ _ _ hstored ih =>
    intro x hx
    rcases List.mem_append.mp hx with h1 | h1
    · obtain ⟨m, hm, hle⟩ := ih x h1
      exact ⟨m, hm, by omega⟩
    · rw [List.mem_singleton] at h1
      subst h1
      exact hstored

theorem closedWalk_subset {g : Grafo V} {o : V} {dists : List (V × Nat)} {v : V}
    {l : List V} {c : Nat} (h : ClosedWalk g o dists v l c) :
    ∀ x ∈ l, x = o ∨ x ∈ targetsOf g := by
  induction h with
  | refl _ =>
    intro x hx
    rw [List.mem_singleton] at hx
    exact Or.inl hx
  | @snoc u w l' c' p _ hedge _ _ ih =>
    intro x hx
    rcases List.mem_append.mp hx with h1 | h1
    · exact ih x h1
    · rw [List.mem_singleton] at h1
      subst h1
      exact Or.inr (edge_target_mem hedge)

theorem closedWalk_cost_le {g : Grafo V} {o : V} {dists : List (V × Nat)} {v : V}
    {l : List V} {c : Nat} (h : ClosedWalk g o dists v l c) :
    c + pesoTotal g ≤ l.length * pesoTotal g := by
  induction h with
  | refl _ => simp [List.length_singleton]
  | @snoc u w l' c' p _ hedge _ _ ih =>
    have hp : p ≤ pesoTotal g := edge_weight_le_pesoTotal hedge
    simp only [List.length_append, List.length_singleton]
    have : (l'.length + 1) * pesoTotal g = l'.length * pesoTotal g + pesoTotal g := by ring
    omega

theorem closedWalk_cost_le_capU {g : Grafo V} {o : V} {dists : List (V × Nat)} {v : V}
    {l : List V} {c : Nat} (h : ClosedWalk g o dists v l c) : c ≤ capU g := by
  have h1 := closedWalk_cost_le h
  have h2 : l.length ≤ (targetsOf g).length + 1 := by
    obtain ⟨hnd, _⟩ := closedWalk_nodup h
    have hsub : l.toFinset ⊆ insert o (targetsOf g).toFinset := by
      intro x hx
      rw [List.mem_toFinset] at hx
      rcases closedWalk_subset h x hx with h3 | h3
      · subst h3; exact Finset.mem_insert_self _ _
      · exact Finset.mem_insert_of_mem (List.mem_toFinset.mpr h3)
    calc l.length = l.toFinset.card := (List.toFinset_card_of_nodup hnd).symm
      _ ≤ (insert o (targetsOf g).toFinset).card := Finset.card_le_card hsub
      _ ≤ (targetsOf g).toFinset.card + 1 := Finset.card_insert_le _ _
      _ ≤ (targetsOf g).length + 1 := by
          have := List.toFinset_card_le (targetsOf g)
          omega
  unfold capU
  by_cases hc : c = 0
  · omega
  · have := Nat.mul_le_mul_right (pesoTotal g) h2
    have h3 : c + pesoTotal g ≤ ((targetsOf g).length + 1) * pesoTotal g := le_trans h1 this
    have h4 : ((targetsOf g).length + 1) * pesoTotal g
        = (targetsOf g).length * pesoTotal g + pesoTotal g := by ring
    omega

/-! ## The bounded search: step analysis -/

theorem relaxB_step {g : Grafo V} (hg : GrafoBom g) {o atual : V} {D d : Nat}
    {st : List (V × Nat) × List (Nat × V)} {vp : V × Nat}
    (hvp : edge g atual vp.1 vp.2) (hvpa : vp.1 ≠ atual)
    (ho : lookupA st.1 o = some 0)
    (hnd : (st.1.map Prod.fst).Nodup)
    (hB : ∀ v n, lookupA st.1 v = some n → n ≤ D ∧ ∃ c, c ≤ n ∧ HasWalk g o v c)
    (hC : ∀ e ∈ st.2, ∃ m, lookupA st.1 e.2 = some m ∧ m ≤ e.1)
    (ha : lookupA st.1 atual = some d) :
    lookupA (relaxB D d st vp).1 o = some 0 ∧
    ((relaxB D d st vp).1.map Prod.fst).Nodup ∧
    (∀ v n, lookupA (relaxB D d st vp).1 v = some n → n ≤ D ∧ ∃ c, c ≤ n ∧ HasWalk g o v c) ∧
    (∀ e ∈ (relaxB D d st vp).2, ∃ m, lookupA (relaxB D d st vp).1 e.2 = some m ∧ m ≤ e.1) ∧
    lookupA (relaxB D d st vp).1 atual = some d ∧
    (d + vp.2 ≤ D → ∃ m, lookupA (relaxB D d st vp).1 vp.1 = some m ∧ m ≤ d + vp.2) ∧
    (∀ x m, lookupA st.1 x = some m → ∃ m', m' ≤ m ∧ lookupA (relaxB D d st vp).1 x = some m') ∧
    (∀ e ∈ st.2, e ∈ (relaxB D d st vp).2) ∧
    (∀ v n, lookupA (relaxB D d st vp).1 v = some n →
      lookupA st.1 v = some n ∨ (v = vp.1 ∧ (n, v) ∈ (relaxB D d st vp).2)) := by
  have hwalkNovo : ∃ c, c ≤ d + vp.2 ∧ HasWalk g o vp.1 c := by
    obtain ⟨_, c, hc, hw⟩ := hB atual d ha
    exact ⟨c + vp.2, by omega, hasWalk_snoc hw hvp⟩
  have hOno : vp.1 ≠ o ∨ lookupA st.1 vp.1 = some 0 := by
    by_cases h : vp.1 = o
    · subst h; exact Or.inr ho
    · exact Or.inl h
  -- the two possible results
  by_cases hfire : (lookupA st.1 vp.1 = none ∧ d + vp.2 ≤ D) ∨
      (∃ m, lookupA st.1 vp.1 = some m ∧ d + vp.2 ≤ D ∧ d + vp.2 < m)
  · -- the relaxation fires
    have hres : relaxB D d st vp =
        (setA st.1 vp.1 (d + vp.2), st.2 ++ [(d + vp.2, vp.1)]) := by
      unfold relaxB
      rcases hfire with ⟨hn, hle⟩ | ⟨m, hm, hle, hlt⟩
      · rw [hn]
        simp [hle]
      · rw [hm]
        simp [hle, hlt]
    have hDle : d + vp.2 ≤ D := by
      rcases hfire with ⟨_, hle⟩ | ⟨_, _, hle, _⟩ <;> exact hle
    have hvpo : vp.1 ≠ o := by
      rcases hOno with h | h
      · exact h
      · rcases hfire with ⟨hn, _⟩ | ⟨m, hm, _, hlt⟩
        · rw [h] at hn; cases hn
        · rw [h] at hm
          cases hm
          omega
    have hmono : ∀ x m, lookupA st.1 x = some m →
        ∃ m', m' ≤ m ∧ lookupA (relaxB D d st vp).1 x = some m' := by
      intro x m hm
      rw [hres]
      by_cases hx : x = vp.1
      · subst hx
        rcases hfire with ⟨hn, _⟩ | ⟨m'', hm'', _, hlt⟩
        · rw [hn] at hm; cases hm
        · rw [hm''] at hm
          cases hm
          exact ⟨d + vp.2, by omega, setA_lookup_self _ _ _⟩
      · exact ⟨m, le_refl m, by rw [setA_lookup_ne _ _ _ _ hx]; exact hm⟩
    refine ⟨?_, ?_, ?_, ?_, ?_, ?_, hmono, ?_, ?_⟩
    · rw [hres]
      simpa [setA_lookup_ne _ _ _ _ (Ne.symm hvpo)] using ho
    · rw [hres]
      exact setA_keys_nodup _ _ hnd
    · intro v n hn
      rw [hres] at hn
      by_cases hv : v = vp.1
      · subst hv
        rw [setA_lookup_self] at hn
        cases hn
        exact ⟨hDle, hwalkNovo⟩
      · rw [setA_lookup_ne _ _ _ _ hv] at hn
        exact hB v n hn
    · intro e he
      rw [hres] at he ⊢
      rcases List.mem_append.mp he with h1 | h1
      · obtain ⟨m, hm, hle⟩ := hC e h1
        by_cases hx : e.2 = vp.1
        · rw [hx]
          refine ⟨d + vp.2, setA_lookup_self _ _ _, ?_⟩
          rcases hfire with ⟨hn, _⟩ | ⟨m'', hm'', _, hlt⟩
          · rw [hx, hn] at hm; cases hm
          · rw [hx, hm''] at hm
            cases hm
            omega
        · exact ⟨m, by rw [setA_lookup_ne _ _ _ _ hx]; exact hm, hle⟩
      · rw [List.mem_singleton] at h1
        subst h1
        exact ⟨d + vp.2, setA_lookup_self _ _ _, le_refl _⟩
    · rw [hres]
      show lookupA (setA st.1 vp.1 (d + vp.2)) atual = some d
      rw [setA_lookup_ne _ _ _ _ (Ne.symm hvpa)]
      exact ha
    · intro _
      rw [hres]
      exact ⟨d + vp.2, setA_lookup_self _ _ _, le_refl _⟩
    · intro e he
      rw [hres]
      exact List.mem_append.mpr (Or.inl he)
    · intro v n hn
      rw [hres] at hn ⊢
      by_cases hv : v = vp.1
      · subst hv
        rw [setA_lookup_self] at hn
        cases hn
        exact Or.inr ⟨rfl, List.mem_append.mpr (Or.inr (List.mem_singleton.mpr rfl))⟩
      · rw [setA_lookup_ne _ _ _ _ hv] at hn
        exact Or.inl hn
  · -- no relaxation
    have hres : relaxB D d st vp = st := by
      unfold relaxB
      push_neg at hfire
      obtain ⟨h1, h2⟩ := hfire
      cases hl : lookupA st.1 vp.1 with
      | none =>
        have := h1 hl
        simp [this]
      | some m =>
        have := h2 m hl
        have : ¬(d + vp.2 ≤ D ∧ d + vp.2 < m) := by
          intro hcon
          exact absurd hcon.2 (by omega)
        simp only [this, if_false]
    rw [hres]
    push_neg at hfire
    obtain ⟨h1, h2⟩ := hfire
    refine ⟨ho, hnd, hB, hC, ha, ?_, ?_, fun e he => he, fun v n hn => Or.inl hn⟩
    · intro hle
      cases hl : lookupA st.1 vp.1 with
      | none => exact absurd hle (not_le.mpr (h1 hl))
      | some m =>
        have := h2 m hl
        exact ⟨m, rfl, by omega⟩
    · intro x m hm
      exact ⟨m, le_refl m, hm⟩

theorem relaxListB_inv {g : Grafo V} (hg : GrafoBom g) {o atual : V} {D d : Nat}
    (ns : List (V × Nat)) (hns : ∀ vp ∈ ns, edge g atual vp.1 vp.2 ∧ vp.1 ≠ atual)
    (st : List (V × Nat) × List (Nat × V))
    (ho : lookupA st.1 o = some 0)
    (hnd : (st.1.map Prod.fst).Nodup)
    (hB : ∀ v n, lookupA st.1 v = some n → n ≤ D ∧ ∃ c, c ≤ n ∧ HasWalk g o v c)
    (hC : ∀ e ∈ st.2, ∃ m, lookupA st.1 e.2 = some m ∧ m ≤ e.1)
    (ha : lookupA st.1 atual = some d) :
    lookupA (ns.foldl (relaxB D d) st).1 o = some 0 ∧
    ((ns.foldl (relaxB D d) st).1.map Prod.fst).Nodup ∧
    (∀ v n, lookupA (ns.foldl (relaxB D d) st).1 v = some n →
      n ≤ D ∧ ∃ c, c ≤ n ∧ HasWalk g o v c) ∧
    (∀ e ∈ (ns.foldl (relaxB D d) st).2,
      ∃ m, lookupA (ns.foldl (relaxB D d) st).1 e.2 = some m ∧ m ≤ e.1) ∧
    lookupA (ns.foldl (relaxB D d) st).1 atual = some d ∧
    (∀ vp ∈ ns, d + vp.2 ≤ D →
      ∃ m, lookupA (ns.foldl (relaxB D d) st).1 vp.1 = some m ∧ m ≤ d + vp.2) ∧
    (∀ x m, lookupA st.1 x = some m →
      ∃ m', m' ≤ m ∧ lookupA (ns.foldl (relaxB D d) st).1 x = some m') ∧
    (∀ e ∈ st.2, e ∈ (ns.foldl (relaxB D d) st).2) ∧
    (∀ v n, lookupA (ns.foldl (relaxB D d) st).1 v = some n →
      lookupA st.1 v = some n ∨ (n, v) ∈ (ns.foldl (relaxB D d) st).2) := by
  induction ns generalizing st with
  | nil =>
    refine ⟨ho, hnd, hB, hC, ha, ?_, ?_, fun e he => he, fun v n hn => Or.inl hn⟩
    · intro vp hvp; simp at hvp
    · intro x m hm; exact ⟨m, le_refl m, hm⟩
  | cons vp t ih =>
    obtain ⟨hvpe, hvpa⟩ := hns vp (List.mem_cons_self _ _)
    obtain ⟨ho1, hnd1, hB1, hC1, ha1, h7, h8, h9, h10⟩ :=
      relaxB_step hg hvpe hvpa ho hnd hB hC ha
    have hnst : ∀ q ∈ t, edge g atual q.1 q.2 ∧ q.1 ≠ atual :=
      fun q hq => hns q (List.mem_cons_of_mem _ hq)
    obtain ⟨ho2, hnd2, hB2, hC2, ha2, hcl2, hmono2, hsup2, horig2⟩ :=
      ih hnst (relaxB D d st vp) ho1 hnd1 hB1 hC1 ha1
    rw [List.foldl_cons]
    refine ⟨ho2, hnd2, hB2, hC2, ha2, ?_, ?_, ?_, ?_⟩
    · intro q hq hqD
      rcases List.mem_cons.mp hq with h1 | h1
      · subst h1
        obtain ⟨m, hm, hmle⟩ := h7 hqD
        obtain ⟨m', hm'le, hm'⟩ := hmono2 _ _ hm
        exact ⟨m', hm', by omega⟩
      · exact hcl2 q h1 hqD
    · intro x m hm
      obtain ⟨m1, hm1le, hm1⟩ := h8 x m hm
      obtain ⟨m2, hm2le, hm2⟩ := hmono2 x m1 hm1
      exact ⟨m2, by omega, hm2⟩
    · intro e he
      exact hsup2 e (h9 e he)
    · intro v n hn
      rcases horig2 v n hn with h1 | h1
      · rcases h10 v n h1 with h2 | h2
        · exact Or.inl h2
        · exact Or.inr (hsup2 _ h2.2)
      · exact Or.inr h1

/-! ## The bounded search: measure decrease and loop lemmas -/

theorem potB_relaxB_le {g : Grafo V} {D d : Nat}
    {st : List (V × Nat) × List (Nat × V)} {vp : V × Nat} (hvp : vp.1 ∈ targetsOf g) :
    2 * potB g D (relaxB D d st vp).1 + (relaxB D d st vp).2.length ≤
      2 * potB g D st.1 + st.2.length := by
  by_cases hfire : (lookupA st.1 vp.1 = none ∧ d + vp.2 ≤ D) ∨
      (∃ m, lookupA st.1 vp.1 = some m ∧ d + vp.2 ≤ D ∧ d + vp.2 < m)
  · have hres : relaxB D d st vp =
        (setA st.1 vp.1 (d + vp.2), st.2 ++ [(d + vp.2, vp.1)]) := by
      unfold relaxB
      rcases hfire with ⟨hn, hle⟩ | ⟨m, hm, hle, hlt⟩
      · rw [hn]; simp [hle]
      · rw [hm]; simp [hle, hlt]
    have hDle : d + vp.2 ≤ D := by
      rcases hfire with ⟨_, hle⟩ | ⟨_, _, hle, _⟩ <;> exact hle
    rw [hres]
    have hpt : potB g D (setA st.1 vp.1 (d + vp.2)) < potB g D st.1 := by
      unfold potB
      refine sum_lt_sum_of_mem ?_ hvp ?_
      · intro x _
        by_cases hx : x = vp.1
        · subst hx
          rw [setA_lookup_self]
          rcases hfire with ⟨hn, _⟩ | ⟨m, hm, _, hlt⟩
          · rw [hn]
            simp only [Option.getD_some, Option.getD_none]
            omega
          · rw [hm]
            simp only [Option.getD_some]
            omega
        · rw [setA_lookup_ne _ _ _ _ hx]
      · rw [setA_lookup_self]
        rcases hfire with ⟨hn, _⟩ | ⟨m, hm, _, hlt⟩
        · rw [hn]
          simp only [Option.getD_some, Option.getD_none]
          omega
        · rw [hm]
          simp only [Option.getD_some]
          omega
    simp only [List.length_append, List.length_singleton]
    omega
  · have hres : relaxB D d st vp = st := by
      unfold relaxB
      push_neg at hfire
      obtain ⟨h1, h2⟩ := hfire
      cases hl : lookupA st.1 vp.1 with
      | none =>
        have := h1 hl
        simp only [if_neg (not_le.mpr this)]
      | some m =>
        have h3 : ¬(d + vp.2 ≤ D ∧ d + vp.2 < m) := by
          intro hcon
          have := h2 m hl
          omega
        simp only [h3, if_false]
    rw [hres]

theorem potB_relaxList_le {g : Grafo V} {D d : Nat} (ns : List (V × Nat))
    (hns : ∀ vp ∈ ns, vp.1 ∈ targetsOf g) (st : List (V × Nat) × List (Nat × V)) :
    2 * potB g D (ns.foldl (relaxB D d) st).1 + (ns.foldl (relaxB D d) st).2.length ≤
      2 * potB g D st.1 + st.2.length := by
  induction ns generalizing st with
  | nil => exact le_refl _
  | cons vp t ih =>
    rw [List.foldl_cons]
    exact le_trans (ih (fun q hq => hns q (List.mem_cons_of_mem _ hq)) _)
      (potB_relaxB_le (hns vp (List.mem_cons_self _ _)))

theorem vadLoop_succ_none {g : Grafo V} {D f : Nat}
    {st : List (V × Nat) × List (Nat × V)} (h : popMin st.2 = none) :
    vadLoop g D (f + 1) st = st := by
  rw [vadLoop, h]

theorem vadLoop_succ_some {g : Grafo V} {D f dist : Nat} {atual : V}
    {st : List (V × Nat) × List (Nat × V)} {resto : List (Nat × V)}
    (h : popMin st.2 = some ((dist, atual), resto)) :
    vadLoop g D (f + 1) st =
      if (lookupA st.1 atual).getD 0 < dist then vadLoop g D f (st.1, resto)
      else vadLoop g D f ((vizinhos g atual).foldl (relaxB D dist) (st.1, resto)) := by
  rw [vadLoop, h]

theorem vadLoop_fila_empty {g : Grafo V} {D : Nat} :
    ∀ (fuel : Nat) (st : List (V × Nat) × List (Nat × V)),
    2 * potB g D st.1 + st.2.length < fuel → (vadLoop g D fuel st).2 = [] := by
  intro fuel
  induction fuel with
  | zero => intro st h; omega
  | succ f ih =>
    intro st h
    cases hpop : popMin st.2 with
    | none => rw [vadLoop_succ_none hpop]; exact popMin_none_iff.mp hpop
    | some pr =>
      obtain ⟨⟨dist, atual⟩, resto⟩ := pr
      rw [vadLoop_succ_some hpop]
      have hlen := popMin_length hpop
      by_cases hskip : (lookupA st.1 atual).getD 0 < dist
      · rw [if_pos hskip]
        exact ih _ (by simp only []; omega)
      · rw [if_neg hskip]
        refine ih _ ?_
        have hv : ∀ vp ∈ vizinhos g atual, vp.1 ∈ targetsOf g := by
          intro vp hvp
          exact edge_target_mem (show edge g atual vp.1 vp.2 from hvp)
        have := potB_relaxList_le (g := g) (D := D) (d := dist) (vizinhos g atual) hv (st.1, resto)
        simp only [] at this ⊢
        omega

theorem vadLoop_inv {g : Grafo V} (hg : GrafoBom g) {o : V} {D : Nat} :
    ∀ (fuel : Nat) (st : List (V × Nat) × List (Nat × V)),
    InvB g o D st → InvB g o D (vadLoop g D fuel st) := by
  intro fuel
  induction fuel with
  | zero => intro st h; exact h
  | succ f ih =>
    intro st hInv
    obtain ⟨ho, hnd, hB, hC, hD⟩ := hInv
    cases hpop : popMin st.2 with
    | none =>
      rw [vadLoop_succ_none hpop]
      exact ⟨ho, hnd, hB, hC, hD⟩
    | some pr =>
      obtain ⟨⟨dist, atual⟩, resto⟩ := pr
      rw [vadLoop_succ_some hpop]
      obtain ⟨hmem, hresto, hminfst⟩ := popMin_some hpop
      obtain ⟨na, hna, hnale⟩ := hC _ hmem
      simp only [] at hna hnale
      by_cases hskip : (lookupA st.1 atual).getD 0 < dist
      · -- stale entry: drop it
        rw [if_pos hskip]
        refine ih (st.1, resto) ⟨ho, hnd, hB, ?_, ?_⟩
        · intro e he
          exact hC e (List.mem_of_mem_erase (hresto ▸ he))
        · intro v n hn
          rcases hD v n hn with h1 | h1
          · left
            have hne : (n, v) ≠ (dist, atual) := by
              intro hcon
              cases hcon
              rw [hna] at hn
              cases hn
              rw [hna] at hskip
              simp only [Option.getD_some] at hskip
              omega
            show (n, v) ∈ resto
            rw [hresto]
            exact mem_erase_of_mem_of_ne h1 hne
          · exact Or.inr h1
      · -- fresh entry: relax all outgoing edges from its recorded distance
        rw [if_neg hskip]
        rw [hna] at hskip
        simp only [Option.getD_some, not_lt] at hskip
        have hdna : na = dist := le_antisymm hnale hskip
        subst hdna
        have hns : ∀ vp ∈ vizinhos g atual, edge g atual vp.1 vp.2 ∧ vp.1 ≠ atual :=
          fun vp hvp => ⟨hvp, vizinhos_no_self hg atual vp hvp⟩
        have hCr : ∀ e ∈ resto, ∃ m, lookupA st.1 e.2 = some m ∧ m ≤ e.1 := by
          intro e he
          exact hC e (List.mem_of_mem_erase (hresto ▸ he))
        obtain ⟨ho2, hnd2, hB2, hC2, ha2, hcl2, hmono2, hsup2, horig2⟩ :=
          relaxListB_inv hg (vizinhos g atual) hns (st.1, resto) ho hnd hB hCr hna
        refine ih _ ⟨ho2, hnd2, hB2, hC2, ?_⟩
        intro v n hn
        by_cases hv : v = atual
        · subst hv
          rw [ha2] at hn
          cases hn
          right
          intro vp hvp hle
          exact hcl2 vp hvp hle
        · rcases horig2 v n hn with h1 | h1
          · rcases hD v n h1 with h2 | h2
            · left
              have hne : (n, v) ≠ (na, atual) := by
                intro hcon
                cases hcon
                exact hv rfl
              have hin : (n, v) ∈ st.2.erase (na, atual) := mem_erase_of_mem_of_ne h2 hne
              rw [← hresto] at hin
              exact hsup2 _ hin
            · right
              intro vp hvp hle
              obtain ⟨m, hm, hmle⟩ := h2 vp hvp hle
              obtain ⟨m', hm'le, hm'⟩ := hmono2 _ _ hm
              exact ⟨m', hm', by omega⟩
          · exact Or.inl h1

theorem invB_init {g : Grafo V} {o : V} {D : Nat} :
    InvB g o D ([(o, 0)], [(0, o)]) := by
  refine ⟨by simp [lookupA], by simp, ?_, ?_, ?_⟩
  · intro v n hn
    simp only [lookupA] at hn
    by_cases hv : o = v
    · rw [if_pos hv] at hn
      cases hn
      exact ⟨Nat.zero_le D, 0, le_refl 0, ⟨[v], hv ▸ IsWalk.refl⟩⟩
    · rw [if_neg hv] at hn
      cases hn
  · intro e he
    rw [List.mem_singleton] at he
    subst he
    exact ⟨0, by simp [lookupA], le_refl 0⟩
  · intro v n hn
    simp only [lookupA] at hn
    by_cases hv : o = v
    · rw [if_pos hv] at hn
      cases hn
      subst hv
      exact Or.inl (List.mem_singleton.mpr rfl)
    · rw [if_neg hv] at hn
      cases hn

theorem verticesAteDistancia_mem {g : Grafo V} (hg : GrafoBom g) (o : V) (D : Nat)
    (v : V) :
    v ∈ verticesAteDistancia g o D ↔ v ≠ o ∧ ∃ c, HasWalk g o v c ∧ c ≤ D := by
  set final := vadLoop g D (vadFuel g o D) ([(o, 0)], [(0, o)]) with hfinal
  have hdef : verticesAteDistancia g o D =
      (final.1.filter (fun p => decide (p.1 ≠ o) && decide (p.2 ≤ D))).map Prod.fst := rfl
  have hInv : InvB g o D final := vadLoop_inv hg _ _ invB_init
  have hempty : final.2 = [] := by
    refine vadLoop_fila_empty _ _ ?_
    show 2 * potB g D [(o, 0)] + [(0, o)].length < vadFuel g o D
    unfold vadFuel
    simp
  obtain ⟨ho, hnd, hB, hC, hD⟩ := hInv
  have hcl : ∀ x n, lookupA final.1 x = some n →
      ∀ vp ∈ vizinhos g x, n + vp.2 ≤ D → ∃ m, lookupA final.1 vp.1 = some m ∧ m ≤ n + vp.2 := by
    intro x n hn
    rcases hD x n hn with h1 | h1
    · rw [hempty] at h1
      simp at h1
    · exact h1
  rw [hdef]
  constructor
  · intro hv
    obtain ⟨p, hp, hpv⟩ := List.mem_map.mp hv
    obtain ⟨hpmem, hpred⟩ := List.mem_filter.mp hp
    simp only [Bool.and_eq_true, decide_eq_true_eq] at hpred
    have hlook : lookupA final.1 p.1 = some p.2 := lookupA_of_mem_nodup hnd hpmem
    obtain ⟨hle, c, hcle, hw⟩ := hB p.1 p.2 hlook
    subst hpv
    exact ⟨hpred.1, c, hw, by omega⟩
  · rintro ⟨hvo, c, hw, hcD⟩
    obtain ⟨l, hl⟩ := hw
    obtain ⟨m, hm, hmle⟩ := walk_closed_bounded ho hcl hl hcD
    refine List.mem_map.mpr ⟨(v, m), List.mem_filter.mpr ⟨lookupA_mem hm, ?_⟩, rfl⟩
    simp only [Bool.and_eq_true, decide_eq_true_eq]
    exact ⟨hvo, by omega⟩

/-- C1: for every well-formed graph, origin and bound, the result of
`vertices_ate_distancia(origem, D)` contains exactly the vertices other
than the origin that admit a walk from the origin of total weight at most
`D` (equivalently: whose shortest weighted distance is at most `D`);
unreachable-within-the-bound vertices are simply absent. -/
theorem c1_vertices_ate_distancia {g : Grafo V} (hg : GrafoBom g) (o : V) (D : Nat)
    (v : V) :
    v ∈ verticesAteDistancia g o D ↔ v ≠ o ∧ ∃ c, HasWalk g o v c ∧ c ≤ D :=
  verticesAteDistancia_mem hg o D v

/-- Witness for C1 on the spec path graph `0 →(3) 1 →(4) 2` at bound 7. -/
theorem c1_vertices_ate_distancia_witness :
    GrafoBom gCaminho ∧
    ((2 : Nat) ∈ verticesAteDistancia gCaminho 0 7 ↔
      (2 : Nat) ≠ 0 ∧ ∃ c, HasWalk gCaminho 0 2 c ∧ c ≤ 7) :=
  ⟨by decide, c1_vertices_ate_distancia (by decide) 0 7 2⟩

/-! ## The unbounded search: step analysis -/

theorem closedWalk_mono {g : Grafo V} {o : V} {d1 d2 : List (V × Nat)}
    (hmono : ∀ x m, lookupA d1 x = some m → ∃ m', m' ≤ m ∧ lookupA d2 x = some m')
    {v : V} {l : List V} {c : Nat} (h : ClosedWalk g o d1 v l c) :
    ClosedWalk g o d2 v l c := by
  induction h with
  | refl h0 =>
    obtain ⟨m', hle, hm'⟩ := hmono o 0 h0
    rw [Nat.le_zero.mp hle] at hm'
    exact ClosedWalk.refl hm'
  | @snoc u w l' c' p _ hedge hnot hstored ih =>
    obtain ⟨m, hm, hmle⟩ := hstored
    obtain ⟨m', hm'le, hm'⟩ := hmono _ _ hm
    exact ClosedWalk.snoc ih hedge hnot ⟨m', hm', by omega⟩

theorem relaxU_step {g : Grafo V} {o atual : V} {dist : Nat}
    {st : DState V} {vp : V × Nat}
    (hvp : edge g atual vp.1 vp.2) (hvpa : vp.1 ≠ atual)
    (ho : lookupA st.1 o = some 0)
    (hnd : (st.1.map Prod.fst).Nodup)
    (hndC : (st.2.1.map Prod.fst).Nodup)
    (hsub : ∀ v, (lookupA st.2.1 v).isSome = true → (lookupA st.1 v).isSome = true)
    (hP : ∀ v n, lookupA st.1 v = some n →
      ∃ l, lookupA st.2.1 v = some l ∧ ClosedWalk g o st.1 v l n)
    (hC : ∀ e ∈ st.2.2, ∃ m, lookupA st.1 e.2 = some m ∧ m ≤ e.1)
    (ha : lookupA st.1 atual = some dist) :
    lookupA (relaxU atual dist st vp).1 o = some 0 ∧
    ((relaxU atual dist st vp).1.map Prod.fst).Nodup ∧
    ((relaxU atual dist st vp).2.1.map Prod.fst).Nodup ∧
    (∀ v, (lookupA (relaxU atual dist st vp).2.1 v).isSome = true →
      (lookupA (relaxU atual dist st vp).1 v).isSome = true) ∧
    (∀ v n, lookupA (relaxU atual dist st vp).1 v = some n →
      ∃ l, lookupA (relaxU atual dist st vp).2.1 v = some l ∧
        ClosedWalk g o (relaxU atual dist st vp).1 v l n) ∧
    (∀ e ∈ (relaxU atual dist st vp).2.2,
      ∃ m, lookupA (relaxU atual dist st vp).1 e.2 = some m ∧ m ≤ e.1) ∧
    lookupA (relaxU atual dist st vp).1 atual = some dist ∧
    (∃ m, lookupA (relaxU atual dist st vp).1 vp.1 = some m ∧ m ≤ dist + vp.2) ∧
    (∀ x m, lookupA st.1 x = some m →
      ∃ m', m' ≤ m ∧ lookupA (relaxU atual dist st vp).1 x = some m') ∧
    (∀ e ∈ st.2.2, e ∈ (relaxU atual dist st vp).2.2) ∧
    (∀ v n, lookupA (relaxU atual dist st vp).1 v = some n →
      lookupA st.1 v = some n ∨ (n, v) ∈ (relaxU atual dist st vp).2.2) ∧
    2 * potU g (relaxU atual dist st vp).1 + (relaxU atual dist st vp).2.2.length ≤
      2 * potU g st.1 + st.2.2.length := by
  by_cases hfire : lookupA st.1 vp.1 = none ∨
      (∃ m, lookupA st.1 vp.1 = some m ∧ dist + vp.2 < m)
  · -- the relaxation fires
    obtain ⟨la, hla, hcwa⟩ := hP atual dist ha
    have hres : relaxU atual dist st vp =
        (setA st.1 vp.1 (dist + vp.2),
         setA st.2.1 vp.1 (la ++ [vp.1]),
         st.2.2 ++ [(dist + vp.2, vp.1)]) := by
      unfold relaxU
      rw [hla]
      simp only [Option.getD_some]
      rcases hfire with hn | ⟨m, hm, hlt⟩
      · rw [hn]
      · rw [hm]
        simp [hlt]
    have hvpnot : vp.1 ∉ la := by
      intro hmem
      obtain ⟨m, hm, hmle⟩ := closedWalk_mem_lookup hcwa vp.1 hmem
      rcases hfire with hn | ⟨m', hm', hlt⟩
      · rw [hn] at hm; cases hm
      · rw [hm'] at hm
        cases hm
        omega
    have hvpo : vp.1 ≠ o := by
      intro hcon
      rcases hfire with hn | ⟨m, hm, hlt⟩
      · rw [hcon, ho] at hn; cases hn
      · rw [hcon, ho] at hm
        cases hm
        omega
    have hmono : ∀ x m, lookupA st.1 x = some m →
        ∃ m', m' ≤ m ∧ lookupA (relaxU atual dist st vp).1 x = some m' := by
      intro x m hm
      rw [hres]
      by_cases hx : x = vp.1
      · subst hx
        rcases hfire with hn | ⟨m'', hm'', hlt⟩
        · rw [hn] at hm; cases hm
        · rw [hm''] at hm
          cases hm
          exact ⟨dist + vp.2, by omega, setA_lookup_self _ _ _⟩
      · exact ⟨m, le_refl m, by rw [setA_lookup_ne _ _ _ _ hx]; exact hm⟩
    have hcwNovo : ClosedWalk g o (relaxU atual dist st vp).1 vp.1 (la ++ [vp.1])
        (dist + vp.2) := by
      refine ClosedWalk.snoc (closedWalk_mono hmono hcwa) hvp hvpnot ?_
      rw [hres]
      exact ⟨dist + vp.2, setA_lookup_self _ _ _, le_refl _⟩
    have hcap : dist + vp.2 ≤ capU g := closedWalk_cost_le_capU hcwNovo
    refine ⟨?_, ?_, ?_, ?_, ?_, ?_, ?_, ?_, hmono, ?_, ?_, ?_⟩
    · rw [hres]
      show lookupA (setA st.1 vp.1 (dist + vp.2)) o = some 0
      rw [setA_lookup_ne _ _ _ _ (Ne.symm hvpo)]
      exact ho
    · rw [hres]
      exact setA_keys_nodup _ _ hnd
    · rw [hres]
      exact setA_keys_nodup _ _ hndC
    · intro v hv
      rw [hres] at hv ⊢
      by_cases hx : v = vp.1
      · subst hx
        show (lookupA (setA st.1 vp.1 (dist + vp.2)) vp.1).isSome = true
        rw [setA_lookup_self]
        rfl
      · show (lookupA (setA st.1 vp.1 (dist + vp.2)) v).isSome = true
        rw [setA_lookup_ne _ _ _ _ hx]
        refine hsub v ?_
        show (lookupA st.2.1 v).isSome = true
        rw [← setA_lookup_ne st.2.1 vp.1 v (la ++ [vp.1]) hx]
        exact hv
    · intro v n hn
      by_cases hx : v = vp.1
      · subst hx
        rw [hres] at hn ⊢
        rw [setA_lookup_self] at hn
        cases hn
        exact ⟨la ++ [vp.1], setA_lookup_self _ _ _, hres ▸ hcwNovo⟩
      · rw [hres] at hn ⊢
        rw [setA_lookup_ne _ _ _ _ hx] at hn
        obtain ⟨l, hl, hcw⟩ := hP v n hn
        refine ⟨l, ?_, ?_⟩
        · rw [setA_lookup_ne _ _ _ _ hx]
          exact hl
        · exact hres ▸ closedWalk_mono hmono hcw
    · intro e he
      rw [hres] at he ⊢
      rcases List.mem_append.mp he with h1 | h1
      · obtain ⟨m, hm, hle⟩ := hC e h1
        by_cases hx : e.2 = vp.1
        · rw [hx]
          refine ⟨dist + vp.2, setA_lookup_self _ _ _, ?_⟩
          rcases hfire with hn | ⟨m'', hm'', hlt⟩
          · rw [hx, hn] at hm; cases hm
          · rw [hx, hm''] at hm
            cases hm
            omega
        · exact ⟨m, by rw [setA_lookup_ne _ _ _ _ hx]; exact hm, hle⟩
      · rw [List.mem_singleton] at h1
        subst h1
        exact ⟨dist + vp.2, setA_lookup_self _ _ _, le_refl _⟩
    · rw [hres]
      show lookupA (setA st.1 vp.1 (dist + vp.2)) atual = some dist
      rw [setA_lookup_ne _ _ _ _ (Ne.symm hvpa)]
      exact ha
    · rw [hres]
      exact ⟨dist + vp.2, setA_lookup_self _ _ _, le_refl _⟩
    · intro e he
      rw [hres]
      exact List.mem_append.mpr (Or.inl he)
    · intro v n hn
      rw [hres] at hn ⊢
      by_cases hx : v = vp.1
      · subst hx
        rw [setA_lookup_self] at hn
        cases hn
        exact Or.inr (List.mem_append.mpr (Or.inr (List.mem_singleton.mpr rfl)))
      · rw [setA_lookup_ne _ _ _ _ hx] at hn
        exact Or.inl hn
    · rw [hres]
      have hpt : potU g (setA st.1 vp.1 (dist + vp.2)) < potU g st.1 := by
        unfold potU
        refine sum_lt_sum_of_mem ?_ (edge_target_mem hvp) ?_
        · intro x _
          by_cases hx : x = vp.1
          · subst hx
            rw [setA_lookup_self]
            rcases hfire with hn | ⟨m, hm, hlt⟩
            · rw [hn]
              simp only [Option.getD_some, Option.getD_none]
              omega
            · rw [hm]
              simp only [Option.getD_some]
              omega
          · rw [setA_lookup_ne _ _ _ _ hx]
        · rw [setA_lookup_self]
          rcases hfire with hn | ⟨m, hm, hlt⟩
          · rw [hn]
            simp only [Option.getD_some, Option.getD_none]
            omega
          · rw [hm]
            simp only [Option.getD_some]
            omega
      simp only [List.length_append, List.length_singleton]
      omega
  · -- no relaxation
    push_neg at hfire
    obtain ⟨h1, h2⟩ := hfire
    cases hl : lookupA st.1 vp.1 with
    | none => exact absurd hl h1
    | some m =>
      have hge : m ≤ dist + vp.2 := by
        have := h2 m hl
        omega
      have hres : relaxU atual dist st vp = st := by
        unfold relaxU
        rw [hl]
        simp only [if_neg (not_lt.mpr hge)]
      rw [hres]
      exact ⟨ho, hnd, hndC, hsub, hP, hC, ha, ⟨m, hl, hge⟩,
        fun x m' hm' => ⟨m', le_refl m', hm'⟩, fun e he => he,
        fun v n hn => Or.inl hn, le_refl _⟩

theorem relaxListU_inv {g : Grafo V} {o atual : V} {dist : Nat}
    (ns : List (V × Nat)) (hns : ∀ vp ∈ ns, edge g atual vp.1 vp.2 ∧ vp.1 ≠ atual)
    (st : DState V)
    (ho : lookupA st.1 o = some 0)
    (hnd : (st.1.map Prod.fst).Nodup)
    (hndC : (st.2.1.map Prod.fst).Nodup)
    (hsub : ∀ v, (lookupA st.2.1 v).isSome = true → (lookupA st.1 v).isSome = true)
    (hP : ∀ v n, lookupA st.1 v = some n →
      ∃ l, lookupA st.2.1 v = some l ∧ ClosedWalk g o st.1 v l n)
    (hC : ∀ e ∈ st.2.2, ∃ m, lookupA st.1 e.2 = some m ∧ m ≤ e.1)
    (ha : lookupA st.1 atual = some dist) :
    lookupA (ns.foldl (relaxU atual dist) st).1 o = some 0 ∧
    ((ns.foldl (relaxU atual dist) st).1.map Prod.fst).Nodup ∧
    ((ns.foldl (relaxU atual dist) st).2.1.map Prod.fst).Nodup ∧
    (∀ v, (lookupA (ns.foldl (relaxU atual dist) st).2.1 v).isSome = true →
      (lookupA (ns.foldl (relaxU atual dist) st).1 v).isSome = true) ∧
    (∀ v n, lookupA (ns.foldl (relaxU atual dist) st).1 v = some n →
      ∃ l, lookupA (ns.foldl (relaxU atual dist) st).2.1 v = some l ∧
        ClosedWalk g o (ns.foldl (relaxU atual dist) st).1 v l n) ∧
    (∀ e ∈ (ns.foldl (relaxU atual dist) st).2.2,
      ∃ m, lookupA (ns.foldl (relaxU atual dist) st).1 e.2 = some m ∧ m ≤ e.1) ∧
    lookupA (ns.foldl (relaxU atual dist) st).1 atual = some dist ∧
    (∀ vp ∈ ns, ∃ m, lookupA (ns.foldl (relaxU atual dist) st).1 vp.1 = some m ∧
      m ≤ dist + vp.2) ∧
    (∀ x m, lookupA st.1 x = some m →
      ∃ m', m' ≤ m ∧ lookupA (ns.foldl (relaxU atual dist) st).1 x = some m') ∧
    (∀ e ∈ st.2.2, e ∈ (ns.foldl (relaxU atual dist) st).2.2) ∧
    (∀ v n, lookupA (ns.foldl (relaxU atual dist) st).1 v = some n →
      lookupA st.1 v = some n ∨ (n, v) ∈ (ns.foldl (relaxU atual dist) st).2.2) ∧
    2 * potU g (ns.foldl (relaxU atual dist) st).1 +
        (ns.foldl (relaxU atual dist) st).2.2.length ≤
      2 * potU g st.1 + st.2.2.length := by
  induction ns generalizing st with
  | nil =>
    refine ⟨ho, hnd, hndC, hsub, hP, hC, ha, ?_, ?_, fun e he => he,
      fun v n hn => Or.inl hn, le_refl _⟩
    · intro vp hvp; simp at hvp
    · intro x m hm; exact ⟨m, le_refl m, hm⟩
  | cons vp t ih =>
    obtain ⟨hvpe, hvpa⟩ := hns vp (List.mem_cons_self _ _)
    obtain ⟨ho1, hnd1, hndC1, hsub1, hP1, hC1, ha1, h8, h9, h10, h11, h12⟩ :=
      relaxU_step hvpe hvpa ho hnd hndC hsub hP hC ha
    have hnst : ∀ q ∈ t, edge g atual q.1 q.2 ∧ q.1 ≠ atual :=
      fun q hq => hns q (List.mem_cons_of_mem _ hq)
    obtain ⟨ho2, hnd2, hndC2, hsub2, hP2, hC2, ha2, hcl2, hmono2, hsup2, horig2, hmu2⟩ :=
      ih hnst (relaxU atual dist st vp) ho1 hnd1 hndC1 hsub1 hP1 hC1 ha1
    rw [List.foldl_cons]
    refine ⟨ho2, hnd2, hndC2, hsub2, hP2, hC2, ha2, ?_, ?_, ?_, ?_, ?_⟩
    · intro q hq
      rcases List.mem_cons.mp hq with h1 | h1
      · subst h1
        obtain ⟨m, hm, hmle⟩ := h8
        obtain ⟨m', hm'le, hm'⟩ := hmono2 _ _ hm
        exact ⟨m', hm', by omega⟩
      · exact hcl2 q h1
    · intro x m hm
      obtain ⟨m1, hm1le, hm1⟩ := h9 x m hm
      obtain ⟨m2, hm2le, hm2⟩ := hmono2 x m1 hm1
      exact ⟨m2, by omega, hm2⟩
    · intro e he
      exact hsup2 e (h10 e he)
    · intro v n hn
      rcases horig2 v n hn with h1 | h1
      · rcases h11 v n h1 with h2 | h2
        · exact Or.inl h2
        · exact Or.inr (hsup2 _ h2)
      · exact Or.inr h1
    · exact le_trans hmu2 h12

theorem relaxListU_noop {atual : V} {dist : Nat} (ns : List (V × Nat)) {st : DState V}
    (h : ∀ vp ∈ ns, ∃ m, lookupA st.1 vp.1 = some m ∧ m ≤ dist + vp.2) :
    ns.foldl (relaxU atual dist) st = st := by
  induction ns with
  | nil => rfl
  | cons vp t ih =>
    obtain ⟨m, hm, hle⟩ := h vp (List.mem_cons_self _ _)
    have hstep : relaxU atual dist st vp = st := by
      unfold relaxU
      rw [hm]
      simp only [if_neg (not_lt.mpr hle)]
    rw [List.foldl_cons, hstep]
    exact ih (fun q hq => h q (List.mem_cons_of_mem _ hq))

theorem dijLoop_succ_none {g : Grafo V} {f : Nat} {st : DState V}
    (h : popMin st.2.2 = none) : dijLoop g (f + 1) st = st := by
  rw [dijLoop, h]

theorem dijLoop_succ_some {g : Grafo V} {f dist : Nat} {atual : V}
    {st : DState V} {resto : List (Nat × V)}
    (h : popMin st.2.2 = some ((dist, atual), resto)) :
    dijLoop g (f + 1) st =
      dijLoop g f ((vizinhos g atual).foldl (relaxU atual dist) (st.1, st.2.1, resto)) := by
  rw [dijLoop, h]

theorem dijLoop_inv {g : Grafo V} (hg : GrafoBom g) {o : V} :
    ∀ (fuel : Nat) (st : DState V), InvD g o st →
    InvD g o (dijLoop g fuel st) ∧
    (2 * potU g st.1 + st.2.2.length < fuel → (dijLoop g fuel st).2.2 = []) := by
  intro fuel
  induction fuel with
  | zero =>
    intro st h
    exact ⟨h, by intro hcon; omega⟩
  | succ f ih =>
    intro st hInv
    obtain ⟨ho, hnd, hndC, hsub, hP, hC, hD⟩ := hInv
    cases hpop : popMin st.2.2 with
    | none =>
      rw [dijLoop_succ_none hpop]
      exact ⟨⟨ho, hnd, hndC, hsub, hP, hC, hD⟩, fun _ => popMin_none_iff.mp hpop⟩
    | some pr =>
      obtain ⟨⟨dist, atual⟩, resto⟩ := pr
      rw [dijLoop_succ_some hpop]
      obtain ⟨hmem, hresto, hminfst⟩ := popMin_some hpop
      have hlen := popMin_length hpop
      obtain ⟨na, hna, hnale⟩ := hC _ hmem
      simp only [] at hna hnale
      have hCr : ∀ e ∈ resto, ∃ m, lookupA st.1 e.2 = some m ∧ m ≤ e.1 := by
        intro e he
        exact hC e (List.mem_of_mem_erase (hresto ▸ he))
      have hns : ∀ vp ∈ vizinhos g atual, edge g atual vp.1 vp.2 ∧ vp.1 ≠ atual :=
        fun vp hvp => ⟨hvp, vizinhos_no_self hg atual vp hvp⟩
      rcases hD atual na hna with hfresh | hclosed
      · -- the popped pair carries the current settled value
        have hdna : dist = na := le_antisymm (hminfst _ hfresh) hnale
        subst hdna
        obtain ⟨ho2, hnd2, hndC2, hsub2, hP2, hC2, ha2, hcl2, hmono2, hsup2, horig2, hmu2⟩ :=
          relaxListU_inv (vizinhos g atual) hns (st.1, st.2.1, resto)
            ho hnd hndC hsub hP hCr hna
        have hInv' : InvD g o ((vizinhos g atual).foldl (relaxU atual dist)
            (st.1, st.2.1, resto)) := by
          refine ⟨ho2, hnd2, hndC2, hsub2, hP2, hC2, ?_⟩
          intro v n hn
          by_cases hv : v = atual
          · subst hv
            rw [ha2] at hn
            cases hn
            exact Or.inr (fun vp hvp => hcl2 vp hvp)
          · rcases horig2 v n hn with h1 | h1
            · rcases hD v n h1 with h2 | h2
              · left
                have hne : (n, v) ≠ (dist, atual) := by
                  intro hcon
                  cases hcon
                  exact hv rfl
                have hin : (n, v) ∈ st.2.2.erase (dist, atual) :=
                  mem_erase_of_mem_of_ne h2 hne
                rw [← hresto] at hin
                exact hsup2 _ hin
              · right
                intro vp hvp
                obtain ⟨m, hm, hmle⟩ := h2 vp hvp
                obtain ⟨m', hm'le, hm'⟩ := hmono2 _ _ hm
                exact ⟨m', hm', by omega⟩
            · exact Or.inl h1
        obtain ⟨hres1, hres2⟩ := ih _ hInv'
        refine ⟨hres1, ?_⟩
        intro hmu
        refine hres2 ?_
        simp only [] at hmu2 ⊢
        omega
      · -- stale pop: every relaxation from it fails
        have hnoop : (vizinhos g atual).foldl (relaxU atual dist) (st.1, st.2.1, resto) =
            (st.1, st.2.1, resto) := by
          refine relaxListU_noop _ ?_
          intro vp hvp
          obtain ⟨m, hm, hmle⟩ := hclosed vp hvp
          exact ⟨m, hm, by omega⟩
        rw [hnoop]
        have hInv' : InvD g o (st.1, st.2.1, resto) := by
          refine ⟨ho, hnd, hndC, hsub, hP, hCr, ?_⟩
          intro v n hn
          by_cases hv : v = atual
          · subst hv
            rw [hna] at hn
            cases hn
            exact Or.inr hclosed
          · rcases hD v n hn with h1 | h1
            · left
              have hne : (n, v) ≠ (dist, atual) := by
                intro hcon
                cases hcon
                exact hv rfl
              have hin : (n, v) ∈ st.2.2.erase (dist, atual) :=
                mem_erase_of_mem_of_ne h1 hne
              rw [← hresto] at hin
              exact hin
            · exact Or.inr h1
        obtain ⟨hres1, hres2⟩ := ih _ hInv'
        refine ⟨hres1, ?_⟩
        intro hmu
        refine hres2 ?_
        simp only [] at hmu ⊢
        omega

theorem invD_init {g : Grafo V} {o : V} :
    InvD g o ([(o, 0)], [(o, [o])], [(0, o)]) := by
  have hlook : lookupA [(o, (0 : Nat))] o = some 0 := by simp [lookupA]
  refine ⟨hlook, by simp, by simp, ?_, ?_, ?_, ?_⟩
  · intro v hv
    simp only [lookupA] at hv ⊢
    by_cases h : o = v
    · simp [h]
    · rw [if_neg h] at hv
      simp [lookupA] at hv
  · intro v n hn
    simp only [lookupA] at hn
    by_cases hv : o = v
    · rw [if_pos hv] at hn
      cases hn
      subst hv
      exact ⟨[o], by simp [lookupA], ClosedWalk.refl hlook⟩
    · rw [if_neg hv] at hn
      cases hn
  · intro e he
    rw [List.mem_singleton] at he
    subst he
    exact ⟨0, hlook, le_refl 0⟩
  · intro v n hn
    simp only [lookupA] at hn
    by_cases hv : o = v
    · rw [if_pos hv] at hn
      cases hn
      subst hv
      exact Or.inl (List.mem_singleton.mpr rfl)
    · rw [if_neg hv] at hn
      cases hn

theorem dijkstra_spec {g : Grafo V} (hg : GrafoBom g) (o : V) :
    (∀ v n, lookupA (dijkstraComCaminhos g o).1 v = some n →
      ∃ l, lookupA (dijkstraComCaminhos g o).2 v = some l ∧ IsWalk g o v l n) ∧
    (∀ v, Reach g o v → ∃ n, lookupA (dijkstraComCaminhos g o).1 v = some n) ∧
    (∀ v n c, lookupA (dijkstraComCaminhos g o).1 v = some n → HasWalk g o v c → n ≤ c) ∧
    (∀ v, (lookupA (dijkstraComCaminhos g o).2 v).isSome = true →
      (lookupA (dijkstraComCaminhos g o).1 v).isSome = true) ∧
    ((dijkstraComCaminhos g o).1.map Prod.fst).Nodup ∧
    ((dijkstraComCaminhos g o).2.map Prod.fst).Nodup := by
  set final := dijLoop g (dijFuel g o) ([(o, 0)], [(o, [o])], [(0, o)]) with hfinal
  have hdef1 : (dijkstraComCaminhos g o).1 = final.1 := rfl
  have hdef2 : (dijkstraComCaminhos g o).2 = final.2.1 := rfl
  obtain ⟨hInv, hempty⟩ := dijLoop_inv hg (dijFuel g o) _ (invD_init (g := g) (o := o))
  rw [← hfinal] at hInv hempty
  have hemp : final.2.2 = [] := by
    refine hempty ?_
    show 2 * potU g [(o, 0)] + [(0, o)].length < dijFuel g o
    unfold dijFuel
    simp
  obtain ⟨ho, hnd, hndC, hsub, hP, hC, hD⟩ := hInv
  have hcl : ∀ x n, lookupA final.1 x = some n →
      ∀ vp ∈ vizinhos g x, ∃ m, lookupA final.1 vp.1 = some m ∧ m ≤ n + vp.2 := by
    intro x n hn
    rcases hD x n hn with h1 | h1
    · rw [hemp] at h1
      simp at h1
    · exact h1
  rw [hdef1, hdef2]
  refine ⟨?_, ?_, ?_, hsub, hnd, hndC⟩
  · intro v n hn
    obtain ⟨l, hl, hcw⟩ := hP v n hn
    exact ⟨l, hl, closedWalk_isWalk hcw⟩
  · intro v hv
    obtain ⟨c, l, hw⟩ := hv
    obtain ⟨m, hm, _⟩ := walk_closed_unbounded ho hcl hw
    exact ⟨m, hm⟩
  · intro v n c hn hw
    obtain ⟨l, hl⟩ := hw
    obtain ⟨m, hm, hmle⟩ := walk_closed_unbounded ho hcl hl
    rw [hn] at hm
    cases hm
    omega

/-- C2: for every well-formed graph, origin, and vertex reachable from the
origin, `_dijkstra_com_caminhos(origem)` records the length of the shortest
weighted walk from the origin to that vertex, together with a vertex
sequence that starts at the origin, ends at the vertex, follows edges of
the graph, and whose total edge weight equals the recorded distance. -/
theorem c2_dijkstra_com_caminhos {g : Grafo V} (hg : GrafoBom g) (o v : V)
    (hreach : Reach g o v) :
    ∃ n l, lookupA (dijkstraComCaminhos g o).1 v = some n ∧
      lookupA (dijkstraComCaminhos g o).2 v = some l ∧
      IsWalk g o v l n ∧
      ∀ c, HasWalk g o v c → n ≤ c := by
  obtain ⟨hpath, hcompl, hmin, _, _, _⟩ := dijkstra_spec hg o
  obtain ⟨n, hn⟩ := hcompl v hreach
  obtain ⟨l, hl, hwalk⟩ := hpath v n hn
  exact ⟨n, l, hn, hl, hwalk, fun c hc => hmin v n c hn hc⟩

/-- Witness for C2 on the path graph `0 →(3) 1 →(4) 2`, at vertex 2. -/
theorem c2_dijkstra_com_caminhos_witness :
    GrafoBom gCaminho ∧ Reach gCaminho 0 2 ∧
    (∃ n l, lookupA (dijkstraComCaminhos gCaminho 0).1 2 = some n ∧
      lookupA (dijkstraComCaminhos gCaminho 0).2 2 = some l ∧
      IsWalk gCaminho 0 2 l n ∧
      ∀ c, HasWalk gCaminho 0 2 c → n ≤ c) := by
  have hr : Reach gCaminho 0 2 :=
    ⟨0 + 3 + 4, [0] ++ [1] ++ [2],
      IsWalk.snoc (IsWalk.snoc IsWalk.refl (by decide)) (by decide)⟩
  exact ⟨by decide, hr, c2_dijkstra_com_caminhos (by decide) 0 2 hr⟩

/-! ## Queries from an absent origin (claim C9) -/

theorem isWalk_from_no_out {g : Grafo V} {o : V} (h : vizinhos g o = [])
    {v : V} {l : List V} {c : Nat} (hw : IsWalk g o v l c) :
    v = o ∧ l = [o] ∧ c = 0 := by
  induction hw with
  | refl => exact ⟨rfl, rfl, rfl⟩
  | @snoc u w l' c' p hwalk hedge ih =>
    obtain ⟨hu, _, _⟩ := ih
    subst hu
    unfold edge at hedge
    rw [h] at hedge
    simp at hedge

theorem isWalk_pos_cost {g : Grafo V} (hg : GrafoBom g) {o v : V} {l : List V} {c : Nat}
    (hw : IsWalk g o v l c) (hne : v ≠ o) : 1 ≤ c := by
  induction hw with
  | refl => exact absurd rfl hne
  | @snoc u w l' c' p hwalk hedge ih =>
    have hp : 1 ≤ p := vizinhos_pos_weight hg u _ hedge
    omega

theorem origem_sem_saida_spec {g : Grafo V} (hg : GrafoBom g) (o : V)
    (hviz : vizinhos g o = []) (D : Nat) :
    verticesAteDistancia g o D = [] ∧
    (∀ v n, lookupA (dijkstraComCaminhos g o).1 v = some n ↔ v = o ∧ n = 0) ∧
    (∀ v l, lookupA (dijkstraComCaminhos g o).2 v = some l ↔ v = o ∧ l = [o]) := by
  obtain ⟨hpath, hcompl, hmin, hsub, hnd, hndC⟩ := dijkstra_spec hg o
  have hreflreach : Reach g o o := ⟨0, [o], IsWalk.refl⟩
  obtain ⟨n0, hn0⟩ := hcompl o hreflreach
  have hn0z : n0 = 0 := Nat.le_zero.mp (hmin o n0 0 hn0 ⟨[o], IsWalk.refl⟩)
  subst hn0z
  refine ⟨?_, ?_, ?_⟩
  · rw [List.eq_nil_iff_forall_not_mem]
    intro v hv
    obtain ⟨hvo, c, hw, _⟩ := (verticesAteDistancia_mem hg o D v).mp hv
    obtain ⟨l, hl⟩ := hw
    exact hvo (isWalk_from_no_out hviz hl).1
  · intro v n
    constructor
    · intro hn
      obtain ⟨l, hl, hwalk⟩ := hpath v n hn
      obtain ⟨hvo, _, hc⟩ := isWalk_from_no_out hviz hwalk
      exact ⟨hvo, hc⟩
    · rintro ⟨rfl, rfl⟩
      exact hn0
  · intro v l
    constructor
    · intro hl
      have hvsome : (lookupA (dijkstraComCaminhos g o).1 v).isSome = true :=
        hsub v (by rw [hl]; rfl)
      obtain ⟨n, hn⟩ := Option.isSome_iff_exists.mp hvsome
      obtain ⟨l', hl', hwalk⟩ := hpath v n hn
      rw [hl] at hl'
      cases hl'
      obtain ⟨hvo, _, hc⟩ := isWalk_from_no_out hviz hwalk
      exact ⟨hvo, (isWalk_from_no_out hviz hwalk).2.1⟩
    · rintro ⟨rfl, rfl⟩
      obtain ⟨l', hl', hwalk⟩ := hpath _ 0 hn0
      rw [(isWalk_from_no_out hviz hwalk).2.1] at hl'
      exact hl'

/-- C9: querying from a vertex absent from the adjacency dict is not an
error: its neighbour set is empty, `_dijkstra_com_caminhos` settles only
the origin itself at distance 0 with the trivial path, and
`vertices_ate_distancia` returns the empty list. -/
theorem c9_origem_ausente {g : Grafo V} (hg : GrafoBom g) (o : V)
    (habs : lookupA g o = none) (D : Nat) :
    vizinhos g o = [] ∧
    verticesAteDistancia g o D = [] ∧
    (∀ v n, lookupA (dijkstraComCaminhos g o).1 v = some n ↔ v = o ∧ n = 0) ∧
    (∀ v l, lookupA (dijkstraComCaminhos g o).2 v = some l ↔ v = o ∧ l = [o]) := by
  have hviz : vizinhos g o = [] := by unfold vizinhos; rw [habs]; rfl
  obtain ⟨h1, h2, h3⟩ := origem_sem_saida_spec hg o hviz D
  exact ⟨hviz, h1, h2, h3⟩

/-- Witness for C9 with the absent origin `5` in the path graph. -/
theorem c9_origem_ausente_witness :
    GrafoBom gCaminho ∧ lookupA gCaminho 5 = none ∧
    (vizinhos gCaminho 5 = [] ∧
     verticesAteDistancia gCaminho 5 10 = [] ∧
     (∀ v n, lookupA (dijkstraComCaminhos gCaminho 5).1 v = some n ↔ v = 5 ∧ n = 0) ∧
     (∀ v l, lookupA (dijkstraComCaminhos gCaminho 5).2 v = some l ↔ v = 5 ∧ l = [5])) :=
  ⟨by decide, by decide, c9_origem_ausente (by decide) 5 (by decide) 10⟩

/-! ## The diameter (claims C5 and C10) -/

theorem singleton_of_nodup_keys {l : List (V × α)} (hnd : (l.map Prod.fst).Nodup)
    {k : V} {v : α} (hmem : lookupA l k = some v) (hall : ∀ e ∈ l, e = (k, v)) :
    l = [(k, v)] := by
  cases l with
  | nil => simp [lookupA] at hmem
  | cons e t =>
    have he : e = (k, v) := hall e (List.mem_cons_self _ _)
    subst he
    cases t with
    | nil => rfl
    | cons e' t' =>
      have he' : e' = (k, v) := hall e' (List.mem_cons_of_mem _ (List.mem_cons_self _ _))
      subst he'
      simp at hnd

theorem dij_no_edges {g : Grafo V} (h : ∀ e ∈ g, e.2 = []) (origem : V) :
    (dijkstraComCaminhos g origem).1 = [(origem, 0)] := by
  have hgb : GrafoBom g := by
    constructor
    · intro e he vp hvp
      rw [h e he] at hvp
      simp at hvp
    · intro e he vp hvp
      rw [h e he] at hvp
      simp at hvp
  have hviz : vizinhos g origem = [] := by
    unfold vizinhos
    cases hl : lookupA g origem with
    | none => rfl
    | some adj =>
      have := h _ (lookupA_mem hl)
      simpa using this
  obtain ⟨_, hiff, _⟩ := origem_sem_saida_spec hgb origem hviz 0
  obtain ⟨hpath, hcompl, hmin, hsub, hnd, hndC⟩ := dijkstra_spec hgb origem
  have hlook : lookupA (dijkstraComCaminhos g origem).1 origem = some 0 :=
    (hiff origem 0).mpr ⟨rfl, rfl⟩
  refine singleton_of_nodup_keys hnd hlook ?_
  intro e he
  have hl : lookupA (dijkstraComCaminhos g origem).1 e.1 = some e.2 :=
    lookupA_of_mem_nodup hnd he
  obtain ⟨h1, h2⟩ := (hiff e.1 e.2).mp hl
  cases e
  simp only [] at h1 h2
  rw [h1, h2]

/-- C10: when the graph has no edges at all, `calcular_diametro()` returns
distance 0 with the empty vertex sequence as witnessing path. -/
theorem c10_diametro_sem_arestas {st : Estado V} (h : ∀ e ∈ st.grafo, e.2 = []) :
    calcularDiametro st = (0, []) := by
  unfold calcularDiametro
  induction st.vertices with
  | nil => rfl
  | cons v vs ih =>
    rw [List.foldl_cons]
    have hdij : (dijkstraComCaminhos st.grafo v).1 = [(v, 0)] := dij_no_edges h v
    have hstep : (dijkstraComCaminhos st.grafo v).1.foldl
        (fun acc2 p => if acc2.1 < p.2 then
          (p.2, (lookupA (dijkstraComCaminhos st.grafo v).2 p.1).getD []) else acc2)
        ((0 : Nat), ([] : List V)) = ((0 : Nat), ([] : List V)) := by
      rw [hdij]
      rfl
    rw [hstep]
    exact ih

/-- Witness for C10: one registered vertex and no edges. -/
theorem c10_diametro_sem_arestas_witness :
    (∀ e ∈ (⟨[(5, [])], [5]⟩ : Estado Nat).grafo, e.2 = []) ∧
    calcularDiametro (⟨[(5, [])], [5]⟩ : Estado Nat) = (0, []) :=
  ⟨by decide, c10_diametro_sem_arestas (by decide)⟩

theorem diametro_foldl_inner_ge
    (dists : List (V × Nat)) (cam : List (V × List V)) :
    ∀ acc : Nat × List V,
    acc.1 ≤ (dists.foldl (fun acc2 p => if acc2.1 < p.2 then
        (p.2, (lookupA cam p.1).getD []) else acc2) acc).1 ∧
    ∀ p ∈ dists, p.2 ≤ (dists.foldl (fun acc2 p => if acc2.1 < p.2 then
        (p.2, (lookupA cam p.1).getD []) else acc2) acc).1 := by
  induction dists with
  | nil => intro acc; exact ⟨le_refl _, by simp⟩
  | cons q t ih =>
    intro acc
    rw [List.foldl_cons]
    set acc' : Nat × List V := if acc.1 < q.2 then (q.2, (lookupA cam q.1).getD []) else acc
      with hacc'
    have hq : q.2 ≤ acc'.1 ∧ acc.1 ≤ acc'.1 := by
      rw [hacc']
      by_cases hlt : acc.1 < q.2
      · rw [if_pos hlt]; exact ⟨le_refl _, by omega⟩
      · rw [if_neg hlt]; exact ⟨by omega, le_refl _⟩
    obtain ⟨hmono, helem⟩ := ih acc'
    refine ⟨le_trans hq.2 hmono, ?_⟩
    intro p hp
    rcases List.mem_cons.mp hp with h1 | h1
    · subst h1
      exact le_trans hq.1 hmono
    · exact helem p h1

theorem diametro_ge {st : Estado V} :
    ∀ (vs : List V) (acc : Nat × List V),
    acc.1 ≤ (vs.foldl (fun acc origem =>
        (dijkstraComCaminhos st.grafo origem).1.foldl
          (fun acc2 p => if acc2.1 < p.2 then
            (p.2, (lookupA (dijkstraComCaminhos st.grafo origem).2 p.1).getD []) else acc2)
          acc) acc).1 ∧
    ∀ u ∈ vs, ∀ p ∈ (dijkstraComCaminhos st.grafo u).1,
      p.2 ≤ (vs.foldl (fun acc origem =>
        (dijkstraComCaminhos st.grafo origem).1.foldl
          (fun acc2 p => if acc2.1 < p.2 then
            (p.2, (lookupA (dijkstraComCaminhos st.grafo origem).2 p.1).getD []) else acc2)
          acc) acc).1 := by
  intro vs
  induction vs with
  | nil => intro acc; exact ⟨le_refl _, by simp⟩
  | cons u t ih =>
    intro acc
    rw [List.foldl_cons]
    set acc1 := (dijkstraComCaminhos st.grafo u).1.foldl
      (fun acc2 p => if acc2.1 < p.2 then
        (p.2, (lookupA (dijkstraComCaminhos st.grafo u).2 p.1).getD []) else acc2) acc
    obtain ⟨hinner_mono, hinner_elem⟩ :=
      diametro_foldl_inner_ge
        (dijkstraComCaminhos st.grafo u).1 (dijkstraComCaminhos st.grafo u).2 acc
    obtain ⟨houter_mono, houter_elem⟩ := ih acc1
    refine ⟨le_trans hinner_mono houter_mono, ?_⟩
    intro w hw p hp
    rcases List.mem_cons.mp hw with h1 | h1
    · subst h1
      exact le_trans (hinner_elem p hp) houter_mono
    · exact houter_elem w h1 p hp

/-- C5 (amended): for every well-formed state with at least one edge, the
distance `calcular_diametro()` returns is at least 1 and at least the
shortest weighted distance of every reachable ordered pair of vertices.
(The original claim — diameter at least the largest single edge weight —
is false; see the counterexample.) -/
theorem c5_diametro_amended {st : Estado V} (h : EstadoBom st)
    (hedge : ∃ e ∈ st.grafo, e.2 ≠ []) :
    1 ≤ (calcularDiametro st).1 ∧
    ∀ u ∈ st.vertices, ∀ v, Reach st.grafo u v →
      ∃ n, HasWalk st.grafo u v n ∧ (∀ c, HasWalk st.grafo u v c → n ≤ c) ∧
        n ≤ (calcularDiametro st).1 := by
  have hgb : GrafoBom st.grafo := grafoBom_of_estadoBom h
  have hmain : ∀ u ∈ st.vertices, ∀ v, Reach st.grafo u v →
      ∃ n, HasWalk st.grafo u v n ∧ (∀ c, HasWalk st.grafo u v c → n ≤ c) ∧
        n ≤ (calcularDiametro st).1 := by
    intro u hu v hr
    obtain ⟨hpath, hcompl, hmin, _, hnd, _⟩ := dijkstra_spec hgb u
    obtain ⟨n, hn⟩ := hcompl v hr
    obtain ⟨l, hl, hwalk⟩ := hpath v n hn
    refine ⟨n, ⟨l, hwalk⟩, fun c hc => hmin v n c hn hc, ?_⟩
    have hmem : (v, n) ∈ (dijkstraComCaminhos st.grafo u).1 := lookupA_mem hn
    exact (diametro_ge st.vertices (0, [])).2 u hu (v, n) hmem
  refine ⟨?_, hmain⟩
  obtain ⟨e, he, hne⟩ := hedge
  obtain ⟨vp, hvp⟩ := List.exists_mem_of_ne_nil _ hne
  have hlook : lookupA st.grafo e.1 = some e.2 := lookupA_of_mem_nodup h.2.1 he
  have hviz : vizinhos st.grafo e.1 = e.2 := by unfold vizinhos; rw [hlook]; rfl
  have hedge' : edge st.grafo e.1 vp.1 vp.2 := by
    unfold edge
    rw [hviz]
    exact hvp
  have hu : e.1 ∈ st.vertices := h.2.2.2.1 e he
  have hr : Reach st.grafo e.1 vp.1 := ⟨0 + vp.2, [e.1] ++ [vp.1],
    IsWalk.snoc IsWalk.refl hedge'⟩
  obtain ⟨n, hwn, _, hnd⟩ := hmain e.1 hu vp.1 hr
  obtain ⟨l, hwl⟩ := hwn
  have hne' : vp.1 ≠ e.1 := h.2.2.2.2.2.2.1 e he vp hvp
  have := isWalk_pos_cost hgb hwl hne'
  omega

/-- Counterexample to C5 as stated: in the graph with edges
`0 →(5) 1`, `0 →(1) 2`, `2 →(1) 1` the computed diameter is 2, strictly
below the largest single edge weight 5. -/
theorem c5_contraexemplo :
    edge estPesado.grafo 0 1 5 ∧
    (calcularDiametro estPesado).1 = 2 ∧
    ¬(5 ≤ (calcularDiametro estPesado).1) := by
  refine ⟨by decide, ?_, ?_⟩ <;> decide

/-- Witness for C5 (amended) on the same heavy-edge graph. -/
theorem c5_diametro_amended_witness :
    EstadoBom estPesado ∧ (∃ e ∈ estPesado.grafo, e.2 ≠ []) ∧
    (1 ≤ (calcularDiametro estPesado).1 ∧
     ∀ u ∈ estPesado.vertices, ∀ v, Reach estPesado.grafo u v →
      ∃ n, HasWalk estPesado.grafo u v n ∧ (∀ c, HasWalk estPesado.grafo u v c → n ≤ c) ∧
        n ≤ (calcularDiametro estPesado).1) :=
  ⟨by decide, ⟨(0, [(1, 5), (2, 1)]), by decide, by decide⟩,
    c5_diametro_amended (by decide) ⟨(0, [(1, 5), (2, 1)]), by decide, by decide⟩⟩

/-! ## Top-20 rankings (claim C6) -/

theorem tupleGe_iff {a b : Nat × V} :
    tupleGe a b = true ↔ b.1 < a.1 ∨ (a.1 = b.1 ∧ b.2 ≤ a.2) := by
  unfold tupleGe
  simp

theorem tupleGe_trans : ∀ a b c : Nat × V,
    tupleGe a b = true → tupleGe b c = true → tupleGe a c = true := by
  intro a b c hab hbc
  rw [tupleGe_iff] at hab hbc ⊢
  rcases hab with h1 | ⟨h1, h1'⟩ <;> rcases hbc with h2 | ⟨h2, h2'⟩
  · exact Or.inl (by omega)
  · exact Or.inl (by omega)
  · exact Or.inl (by omega)
  · exact Or.inr ⟨by omega, le_trans h2' h1'⟩

theorem tupleGe_total : ∀ a b : Nat × V, (tupleGe a b || tupleGe b a) = true := by
  intro a b
  rw [Bool.or_eq_true, tupleGe_iff, tupleGe_iff]
  rcases Nat.lt_trichotomy a.1 b.1 with h | h | h
  · exact Or.inr (Or.inl h)
  · rcases le_total a.2 b.2 with h2 | h2
    · exact Or.inr (Or.inr ⟨h.symm, h2⟩)
    · exact Or.inl (Or.inr ⟨h, h2⟩)
  · exact Or.inl (Or.inl h)

theorem insereOrdenado_perm (p : Nat × V) (l : List (Nat × V)) :
    (insereOrdenado p l).Perm (p :: l) := by
  induction l with
  | nil => exact List.Perm.refl _
  | cons q t ih =>
    rw [insereOrdenado]
    by_cases hc : tupleGe p q = true
    · rw [if_pos hc]
    · rw [if_neg hc]
      exact (List.Perm.cons q ih).trans (List.Perm.swap p q t)

theorem ordenaDesc_perm (l : List (Nat × V)) : (ordenaDesc l).Perm l := by
  induction l with
  | nil => exact List.Perm.refl _
  | cons p t ih =>
    rw [ordenaDesc]
    exact (insereOrdenado_perm p (ordenaDesc t)).trans (List.Perm.cons p ih)

theorem insereOrdenado_pairwise (p : Nat × V) {l : List (Nat × V)}
    (h : l.Pairwise (fun a b => tupleGe a b = true)) :
    (insereOrdenado p l).Pairwise (fun a b => tupleGe a b = true) := by
  induction l with
  | nil => simp [insereOrdenado]
  | cons q t ih =>
    rw [insereOrdenado]
    rw [List.pairwise_cons] at h
    by_cases hc : tupleGe p q = true
    · rw [if_pos hc]
      rw [List.pairwise_cons]
      refine ⟨?_, List.pairwise_cons.mpr h⟩
      intro x hx
      rcases List.mem_cons.mp hx with h1 | h1
      · subst h1; exact hc
      · exact tupleGe_trans _ _ _ hc (h.1 x h1)
    · rw [if_neg hc]
      have hqp : tupleGe q p = true := by
        have := tupleGe_total p q
        rw [Bool.or_eq_true] at this
        rcases this with h1 | h1
        · exact absurd h1 hc
        · exact h1
      rw [List.pairwise_cons]
      refine ⟨?_, ih h.2⟩
      intro x hx
      rcases List.mem_cons.mp ((insereOrdenado_perm p t).mem_iff.mp hx) with h1 | h1
      · exact h1 ▸ hqp
      · exact h.1 x h1

theorem ordenaDesc_pairwise (l : List (Nat × V)) :
    (ordenaDesc l).Pairwise (fun a b => tupleGe a b = true) := by
  induction l with
  | nil => simp [ordenaDesc]
  | cons p t ih =>
    rw [ordenaDesc]
    exact insereOrdenado_pairwise p ih

theorem sorted_take_tupleGe (l : List (Nat × V)) :
    ((ordenaDesc l).take 20).Pairwise (fun a b => tupleGe a b = true) :=
  List.Pairwise.sublist (List.take_sublist _ _) (ordenaDesc_pairwise l)

theorem mem_of_mem_take_ordenaDesc {l : List (Nat × V)} {p : Nat × V}
    (h : p ∈ (ordenaDesc l).take 20) : p ∈ l :=
  (ordenaDesc_perm l).mem_iff.mp (List.mem_of_mem_take h)

theorem length_take_ordenaDesc (l : List (Nat × V)) :
    ((ordenaDesc l).take 20).length = min 20 l.length := by
  rw [List.length_take, (ordenaDesc_perm l).length_eq]

theorem grauEntradaV_pos {g : Grafo V} {v : V} (hpw : ∀ e ∈ g, ∀ vp ∈ e.2, 1 ≤ vp.2)
    (hv : v ∈ targetsOf g) : 1 ≤ grauEntradaV g v := by
  simp only [targetsOf, List.mem_flatten] at hv
  obtain ⟨keys, hkeys, hvk⟩ := hv
  obtain ⟨e, he, rfl⟩ := List.mem_map.mp hkeys
  obtain ⟨vp, hvp, hvpv⟩ := List.mem_map.mp hvk
  unfold grauEntradaV
  have hinner : 1 ≤ ((e.2.filter (fun q => decide (q.1 = v))).map Prod.snd).sum := by
    have hvpf : vp ∈ e.2.filter (fun q => decide (q.1 = v)) :=
      List.mem_filter.mpr ⟨hvp, by simp [hvpv]⟩
    have hmem : vp.2 ∈ (e.2.filter (fun q => decide (q.1 = v))).map Prod.snd :=
      List.mem_map.mpr ⟨vp, hvpf, rfl⟩
    have := List.single_le_sum (fun x _ => Nat.zero_le x) _ hmem
    have := hpw e he vp hvp
    omega
  have houter : ((e.2.filter (fun q => decide (q.1 = v))).map Prod.snd).sum ≤
      (g.map (fun e => ((e.2.filter (fun q => decide (q.1 = v))).map Prod.snd).sum)).sum := by
    refine List.single_le_sum (fun x _ => Nat.zero_le x) _ ?_
    exact List.mem_map.mpr ⟨e, he, rfl⟩
  omega

/-- C6 (amended): both rankings are sorted by descending
`(degree, identifier)`; `top_20_grau_saida` has `min 20 |V|` entries, one
per vertex, with its weighted out-degree; `top_20_grau_entrada` has one
entry per vertex with at least one incoming edge (positive in-degree), so
it can have fewer than 20 entries even when the graph has 20 or more
vertices. -/
theorem c6_top20_amended {st : Estado V} (h : EstadoBom st) :
    (top20GrauSaida st.grafo).Pairwise (fun a b => tupleGe a b = true) ∧
    (top20GrauSaida st.grafo).length = min 20 st.vertices.length ∧
    (∀ p ∈ top20GrauSaida st.grafo, p.2 ∈ st.vertices ∧ p.1 = grauSaidaV st.grafo p.2) ∧
    (top20GrauEntrada st.grafo).Pairwise (fun a b => tupleGe a b = true) ∧
    (top20GrauEntrada st.grafo).length = min 20 (targetsOf st.grafo).dedup.length ∧
    (∀ p ∈ top20GrauEntrada st.grafo,
      p.2 ∈ targetsOf st.grafo ∧ p.1 = grauEntradaV st.grafo p.2 ∧ 1 ≤ p.1) := by
  refine ⟨sorted_take_tupleGe _, ?_, ?_, sorted_take_tupleGe _, ?_, ?_⟩
  · unfold top20GrauSaida
    rw [length_take_ordenaDesc, List.length_map]
    have := (vertices_perm_keys h).length_eq
    rw [List.length_map] at this
    omega
  · intro p hp
    have hmem := mem_of_mem_take_ordenaDesc hp
    obtain ⟨e, he, hpe⟩ := List.mem_map.mp hmem
    have h1 : p.2 = e.1 := by rw [← hpe]
    have h2 : p.1 = sumW e.2 := by rw [← hpe]
    refine ⟨h1 ▸ h.2.2.2.1 e he, ?_⟩
    have hlook : lookupA st.grafo e.1 = some e.2 := lookupA_of_mem_nodup h.2.1 he
    rw [h1, h2]
    unfold grauSaidaV vizinhos
    rw [hlook]
    rfl
  · unfold top20GrauEntrada
    rw [length_take_ordenaDesc, List.length_map]
  · intro p hp
    have hmem := mem_of_mem_take_ordenaDesc hp
    obtain ⟨v, hv, hpv⟩ := List.mem_map.mp hmem
    have h1 : p.2 = v := by rw [← hpv]
    have h2 : p.1 = grauEntradaV st.grafo v := by rw [← hpv]
    have hvt : v ∈ targetsOf st.grafo := List.mem_dedup.mp hv
    refine ⟨h1 ▸ hvt, by rw [h1, h2], ?_⟩
    rw [h2]
    exact grauEntradaV_pos h.2.2.2.2.2.2.2 hvt

set_option maxRecDepth 100000 in
/-- Witness for C6 (amended) on the funnel graph. -/
theorem c6_top20_amended_witness :
    EstadoBom estFunil ∧
    ((top20GrauSaida estFunil.grafo).Pairwise (fun a b => tupleGe a b = true) ∧
     (top20GrauSaida estFunil.grafo).length = min 20 estFunil.vertices.length ∧
     (∀ p ∈ top20GrauSaida estFunil.grafo,
       p.2 ∈ estFunil.vertices ∧ p.1 = grauSaidaV estFunil.grafo p.2) ∧
     (top20GrauEntrada estFunil.grafo).Pairwise (fun a b => tupleGe a b = true) ∧
     (top20GrauEntrada estFunil.grafo).length = min 20 (targetsOf estFunil.grafo).dedup.length ∧
     (∀ p ∈ top20GrauEntrada estFunil.grafo,
       p.2 ∈ targetsOf estFunil.grafo ∧ p.1 = grauEntradaV estFunil.grafo p.2 ∧ 1 ≤ p.1)) :=
  ⟨by decide, c6_top20_amended (by decide)⟩

set_option maxRecDepth 100000 in
/-- Counterexample to C6 as stated: the funnel state has 22 vertices, yet
`top_20_grau_entrada` returns a single entry, because only the unique
common recipient has a positive in-degree. -/
theorem c6_contraexemplo :
    20 ≤ estFunil.vertices.length ∧ (top20GrauEntrada estFunil.grafo).length < 20 := by
  constructor <;> decide

/-! ## Breadth-first search: termination and characterization -/

theorem bfsLoop_succ_nil {g : Grafo V} {f : Nat} {vis : List V} :
    bfsLoop g (f + 1) vis [] = (vis, []) := by
  rw [bfsLoop]

theorem bfsLoop_succ_cons {g : Grafo V} {f : Nat} {vis : List V} {atual : V}
    {resto : List V} :
    bfsLoop g (f + 1) vis (atual :: resto) =
      if atual ∈ vis then bfsLoop g f vis resto
      else bfsLoop g f (vis ++ [atual]) (resto ++ (vizinhos g atual).map Prod.fst) := by
  rw [bfsLoop]

theorem vizinhos_len_le {g : Grafo V} (u : V) :
    ((vizinhos g u).map Prod.fst).length ≤ (targetsOf g).length := by
  unfold vizinhos
  cases hl : lookupA g u with
  | none => simp
  | some adj =>
    simp only [Option.getD_some, List.length_map]
    unfold targetsOf
    rw [List.length_flatten]
    have hmem : (adj.map Prod.fst).length ∈
        ((g.map (fun e => e.2.map Prod.fst)).map List.length) := by
      refine List.mem_map.mpr ⟨adj.map Prod.fst, ?_, rfl⟩
      exact List.mem_map.mpr ⟨(u, adj), lookupA_mem hl, rfl⟩
    have := List.single_le_sum (fun x _ => Nat.zero_le x) _ hmem
    simpa using this

theorem bfsPend_le {g : Grafo V} {vis vis' fila fila' : List V}
    (hf : ∀ x ∈ fila', x ∈ targetsOf g ∨ x ∈ fila) (hv : ∀ x ∈ vis, x ∈ vis') :
    bfsPend g vis' fila' ≤ bfsPend g vis fila := by
  unfold bfsPend
  refine Finset.card_le_card (Finset.sdiff_subset_sdiff ?_ ?_)
  · intro x hx
    rw [List.mem_toFinset, List.mem_append] at hx ⊢
    rcases hx with h | h
    · exact Or.inl h
    · rcases hf x h with h1 | h1
      · exact Or.inl h1
      · exact Or.inr h1
  · intro x hx
    rw [List.mem_toFinset] at hx ⊢
    exact hv x hx

theorem bfsPend_lt {g : Grafo V} {vis fila' : List V} {atual : V} {resto : List V}
    (hf : ∀ x ∈ fila', x ∈ targetsOf g ∨ x ∈ atual :: resto)
    (hna : atual ∉ vis) :
    bfsPend g (vis ++ [atual]) fila' < bfsPend g vis (atual :: resto) := by
  unfold bfsPend
  refine Finset.card_lt_card ?_
  rw [Finset.ssubset_iff_of_subset]
  · refine ⟨atual, ?_, ?_⟩
    · rw [Finset.mem_sdiff, List.mem_toFinset, List.mem_toFinset, List.mem_append]
      exact ⟨Or.inr (List.mem_cons_self _ _), hna⟩
    · intro hcon
      rw [Finset.mem_sdiff] at hcon
      exact hcon.2 (List.mem_toFinset.mpr (by simp))
  · refine Finset.sdiff_subset_sdiff ?_ ?_
    · intro x hx
      rw [List.mem_toFinset, List.mem_append] at hx ⊢
      rcases hx with h | h
      · exact Or.inl h
      · rcases hf x h with h1 | h1
        · exact Or.inl h1
        · exact Or.inr h1
    · intro x hx
      rw [List.mem_toFinset] at hx ⊢
      exact List.mem_append.mpr (Or.inl hx)

theorem bfsLoop_fila_empty {g : Grafo V} :
    ∀ (fuel : Nat) (vis fila : List V),
    ((targetsOf g).length + 1) * bfsPend g vis fila + fila.length < fuel →
    (bfsLoop g fuel vis fila).2 = [] := by
  intro fuel
  induction fuel with
  | zero => intro vis fila h; omega
  | succ f ih =>
    intro vis fila h
    cases fila with
    | nil => rw [bfsLoop_succ_nil]
    | cons atual resto =>
      rw [bfsLoop_succ_cons]
      by_cases hv : atual ∈ vis
      · rw [if_pos hv]
        refine ih _ _ ?_
        have hle : bfsPend g vis resto ≤ bfsPend g vis (atual :: resto) :=
          bfsPend_le (fun x hx => Or.inr (List.mem_cons_of_mem _ hx)) (fun x hx => hx)
        simp only [List.length_cons] at h
        have := Nat.mul_le_mul_left ((targetsOf g).length + 1) hle
        omega
      · rw [if_neg hv]
        refine ih _ _ ?_
        have hf : ∀ x ∈ resto ++ (vizinhos g atual).map Prod.fst,
            x ∈ targetsOf g ∨ x ∈ atual :: resto := by
          intro x hx
          rcases List.mem_append.mp hx with h1 | h1
          · exact Or.inr (List.mem_cons_of_mem _ h1)
          · left
            obtain ⟨vp, hvp, rfl⟩ := List.mem_map.mp h1
            exact edge_target_mem (show edge g atual vp.1 vp.2 from hvp)
        have hlt : bfsPend g (vis ++ [atual]) (resto ++ (vizinhos g atual).map Prod.fst) <
            bfsPend g vis (atual :: resto) := bfsPend_lt hf hv
        have hlen : (resto ++ (vizinhos g atual).map Prod.fst).length ≤
            resto.length + (targetsOf g).length := by
          rw [List.length_append]
          have := vizinhos_len_le (g := g) atual
          omega
        simp only [List.length_cons] at h
        have hmul : ((targetsOf g).length + 1) *
            (bfsPend g (vis ++ [atual]) (resto ++ (vizinhos g atual).map Prod.fst) + 1) ≤
            ((targetsOf g).length + 1) * bfsPend g vis (atual :: resto) :=
          Nat.mul_le_mul_left _ hlt
        have hexp : ((targetsOf g).length + 1) *
            (bfsPend g (vis ++ [atual]) (resto ++ (vizinhos g atual).map Prod.fst) + 1) =
            ((targetsOf g).length + 1) *
              bfsPend g (vis ++ [atual]) (resto ++ (vizinhos g atual).map Prod.fst) +
            ((targetsOf g).length + 1) := by ring
        omega

theorem bfsLoop_inv {g : Grafo V} (inicio : V) :
    ∀ (fuel : Nat) (vis fila : List V),
    (∀ x ∈ vis, Reach g inicio x) →
    (∀ x ∈ fila, Reach g inicio x) →
    (∀ x ∈ vis, ∀ y ∈ (vizinhos g x).map Prod.fst, y ∈ vis ∨ y ∈ fila) →
    (inicio ∈ vis ∨ inicio ∈ fila) →
    (∀ x ∈ (bfsLoop g fuel vis fila).1, Reach g inicio x) ∧
    (∀ x ∈ (bfsLoop g fuel vis fila).1, ∀ y ∈ (vizinhos g x).map Prod.fst,
      y ∈ (bfsLoop g fuel vis fila).1 ∨ y ∈ (bfsLoop g fuel vis fila).2) ∧
    (inicio ∈ (bfsLoop g fuel vis fila).1 ∨ inicio ∈ (bfsLoop g fuel vis fila).2) ∧
    (∀ x ∈ vis, x ∈ (bfsLoop g fuel vis fila).1) := by
  intro fuel
  induction fuel with
  | zero =>
    intro vis fila h1 h2 h3 h4
    exact ⟨h1, h3, h4, fun x hx => hx⟩
  | succ f ih =>
    intro vis fila h1 h2 h3 h4
    cases fila with
    | nil =>
      rw [bfsLoop_succ_nil]
      exact ⟨h1, h3, h4, fun x hx => hx⟩
    | cons atual resto =>
      rw [bfsLoop_succ_cons]
      by_cases hv : atual ∈ vis
      · rw [if_pos hv]
        refine ih vis resto h1 (fun x hx => h2 x (List.mem_cons_of_mem _ hx)) ?_ ?_
        · intro x hx y hy
          rcases h3 x hx y hy with hm | hm
          · exact Or.inl hm
          · rcases List.mem_cons.mp hm with hm1 | hm1
            · exact Or.inl (hm1 ▸ hv)
            · exact Or.inr hm1
        · rcases h4 with hm | hm
          · exact Or.inl hm
          · rcases List.mem_cons.mp hm with hm1 | hm1
            · exact Or.inl (hm1 ▸ hv)
            · exact Or.inr hm1
      · rw [if_neg hv]
        have hra : Reach g inicio atual := h2 atual (List.mem_cons_self _ _)
        have hmain := ih (vis ++ [atual]) (resto ++ (vizinhos g atual).map Prod.fst)
        refine (fun a b c d =>
          ⟨(hmain a b c d).1, (hmain a b c d).2.1, (hmain a b c d).2.2.1,
            fun x hx => (hmain a b c d).2.2.2 x (List.mem_append.mpr (Or.inl hx))⟩) ?_ ?_ ?_ ?_
        · intro x hx
          rcases List.mem_append.mp hx with hm | hm
          · exact h1 x hm
          · rw [List.mem_singleton] at hm
            exact hm ▸ hra
        · intro x hx
          rcases List.mem_append.mp hx with hm | hm
          · exact h2 x (List.mem_cons_of_mem _ hm)
          · obtain ⟨vp, hvp, rfl⟩ := List.mem_map.mp hm
            obtain ⟨c, l, hw⟩ := hra
            exact ⟨c + vp.2, l ++ [vp.1],
              IsWalk.snoc hw (show edge g atual vp.1 vp.2 from hvp)⟩
        · intro x hx y hy
          rcases List.mem_append.mp hx with hm | hm
          · rcases h3 x hm y hy with hn | hn
            · exact Or.inl (List.mem_append.mpr (Or.inl hn))
            · rcases List.mem_cons.mp hn with hn1 | hn1
              · exact Or.inl (List.mem_append.mpr (Or.inr (List.mem_singleton.mpr hn1)))
              · exact Or.inr (List.mem_append.mpr (Or.inl hn1))
          · rw [List.mem_singleton] at hm
            subst hm
            exact Or.inr (List.mem_append.mpr (Or.inr hy))
        · rcases h4 with hm | hm
          · exact Or.inl (List.mem_append.mpr (Or.inl hm))
          · rcases List.mem_cons.mp hm with hm1 | hm1
            · exact Or.inl (List.mem_append.mpr (Or.inr (List.mem_singleton.mpr hm1)))
            · exact Or.inr (List.mem_append.mpr (Or.inl hm1))

theorem bfs_mem {g : Grafo V} (inicio : V) (v : V) :
    v ∈ bfs g inicio ↔ Reach g inicio v := by
  unfold bfs
  have hempty : (bfsLoop g (bfsFuel g inicio) [] [inicio]).2 = [] := by
    refine bfsLoop_fila_empty _ _ _ ?_
    unfold bfsFuel
    simp
  obtain ⟨hreach, hclosed, hstart, _⟩ :=
    bfsLoop_inv inicio (bfsFuel g inicio) [] [inicio]
      (by simp)
      (by
        intro x hx
        rw [List.mem_singleton] at hx
        subst hx
        exact ⟨0, _, IsWalk.refl⟩)
      (by simp) (Or.inr (List.mem_singleton.mpr rfl))
  rw [hempty] at hclosed hstart
  have hstart' : inicio ∈ (bfsLoop g (bfsFuel g inicio) [] [inicio]).1 := by
    rcases hstart with h | h
    · exact h
    · simp at h
  have hclosed' : ∀ x ∈ (bfsLoop g (bfsFuel g inicio) [] [inicio]).1,
      ∀ y ∈ (vizinhos g x).map Prod.fst, y ∈ (bfsLoop g (bfsFuel g inicio) [] [inicio]).1 := by
    intro x hx y hy
    rcases hclosed x hx y hy with h | h
    · exact h
    · simp at h
  constructor
  · exact hreach v
  · rintro ⟨c, l, hw⟩
    clear hreach hclosed hstart hempty
    induction hw with
    | refl => exact hstart'
    | @snoc u w l' c' p hwalk hedge ih =>
      refine hclosed' u ih w ?_
      exact List.mem_map.mpr ⟨(w, p), hedge, rfl⟩

/-! ## The transposed graph -/

theorem mem_setA_of_ne {adj : Adj V} {u' u : V} {p w : Nat}
    (h : (u', p) ∈ adj) (hne : u' ≠ u) : (u', p) ∈ setA adj u w := by
  induction adj with
  | nil => simp at h
  | cons q t ih =>
    obtain ⟨k, v⟩ := q
    by_cases hk : k = u
    · subst hk
      rw [setA, if_pos rfl]
      rcases List.mem_cons.mp h with h1 | h1
      · obtain ⟨he1, _⟩ := Prod.mk.injEq .. ▸ h1
        exact absurd he1 hne
      · exact List.mem_cons_of_mem _ h1
    · rw [setA, if_neg hk]
      rcases List.mem_cons.mp h with h1 | h1
      · exact h1 ▸ List.mem_cons_self _ _
      · exact List.mem_cons_of_mem _ (ih h1)

theorem vizinhos_setEdge_self (m : Grafo V) (v u : V) (w : Nat) :
    vizinhos (setEdge m v u w) v = setA (vizinhos m v) u w := by
  unfold setEdge vizinhos
  rw [setA_lookup_self]
  rfl

theorem vizinhos_setEdge_ne (m : Grafo V) {v x : V} (u : V) (w : Nat) (hx : x ≠ v) :
    vizinhos (setEdge m v u w) x = vizinhos m x := by
  unfold setEdge vizinhos
  rw [setA_lookup_ne _ _ _ _ hx]

theorem mem_vizinhos_setEdge {m : Grafo V} {v u x u' : V} {w p : Nat}
    (h : (u', p) ∈ vizinhos (setEdge m v u w) x) :
    (x = v ∧ u' = u) ∨ (u', p) ∈ vizinhos m x := by
  by_cases hx : x = v
  · subst hx
    rw [vizinhos_setEdge_self] at h
    rcases mem_setA h with h1 | h1
    · exact Or.inr h1
    · obtain ⟨he1, _⟩ := Prod.mk.injEq .. ▸ h1
      exact Or.inl ⟨rfl, he1⟩
  · rw [vizinhos_setEdge_ne _ _ _ hx] at h
    exact Or.inr h

theorem exists_mem_vizinhos_setEdge {m : Grafo V} {x u' : V} {p : Nat} (v u : V) (w : Nat)
    (h : (u', p) ∈ vizinhos m x) :
    ∃ p', (u', p') ∈ vizinhos (setEdge m v u w) x := by
  by_cases hx : x = v
  · subst hx
    rw [vizinhos_setEdge_self]
    by_cases hu : u' = u
    · subst hu
      exact ⟨w, lookupA_mem (setA_lookup_self _ _ _)⟩
    · exact ⟨p, mem_setA_of_ne h hu⟩
  · rw [vizinhos_setEdge_ne _ _ _ hx]
    exact ⟨p, h⟩

theorem setEdge_self_mem (m : Grafo V) (v u : V) (w : Nat) :
    (u, w) ∈ vizinhos (setEdge m v u w) v := by
  rw [vizinhos_setEdge_self]
  exact lookupA_mem (setA_lookup_self _ _ _)

theorem transposeG_inner_sound (e1 : V) (adj : List (V × Nat))
    (R : V → V → Prop) (hadj : ∀ vp ∈ adj, R vp.1 e1)
    (acc : Grafo V) (hacc : ∀ x u p, (u, p) ∈ vizinhos acc x → R x u) :
    ∀ x u p, (u, p) ∈ vizinhos
      (adj.foldl (fun acc2 vp => setEdge acc2 vp.1 e1 vp.2) acc) x → R x u := by
  induction adj generalizing acc with
  | nil => exact hacc
  | cons vp t ih =>
    rw [List.foldl_cons]
    refine ih (fun q hq => hadj q (List.mem_cons_of_mem _ hq)) _ ?_
    intro x u p hmem
    rcases mem_vizinhos_setEdge hmem with ⟨hx, hu⟩ | h1
    · subst hx; subst hu
      exact hadj vp (List.mem_cons_self _ _)
    · exact hacc x u p h1

theorem transposeG_sound {g : Grafo V} :
    ∀ x u p, (u, p) ∈ vizinhos (transposeG g) x →
    ∃ e ∈ g, ∃ vp ∈ e.2, vp.1 = x ∧ e.1 = u := by
  unfold transposeG
  suffices h : ∀ (L : List (V × Adj V)), (∀ e ∈ L, e ∈ g) →
      ∀ (acc : Grafo V),
      (∀ x u p, (u, p) ∈ vizinhos acc x → ∃ e ∈ g, ∃ vp ∈ e.2, vp.1 = x ∧ e.1 = u) →
      ∀ x u p, (u, p) ∈ vizinhos
        (L.foldl (fun acc e => e.2.foldl
          (fun acc2 vp => setEdge acc2 vp.1 e.1 vp.2) acc) acc) x →
      ∃ e ∈ g, ∃ vp ∈ e.2, vp.1 = x ∧ e.1 = u by
    refine h g (fun e he => he) [] ?_
    intro x u p hmem
    simp [vizinhos, lookupA] at hmem
  intro L
  induction L with
  | nil => intro _ acc hacc; exact hacc
  | cons e t ih =>
    intro hL acc hacc
    rw [List.foldl_cons]
    refine ih (fun q hq => hL q (List.mem_cons_of_mem _ hq)) _ ?_
    refine transposeG_inner_sound e.1 e.2 _ ?_ acc hacc
    intro vp hvp
    exact ⟨e, hL e (List.mem_cons_self _ _), vp, hvp, rfl, rfl⟩

theorem transposeG_pres {x u' : V} :
    ∀ (L : List (V × Adj V)) (acc : Grafo V) (p : Nat),
    (u', p) ∈ vizinhos acc x →
    ∃ p', (u', p') ∈ vizinhos
      (L.foldl (fun acc e => e.2.foldl
        (fun acc2 vp => setEdge acc2 vp.1 e.1 vp.2) acc) acc) x := by
  have hinner : ∀ (e1 : V) (adj : List (V × Nat)) (acc : Grafo V) (q : Nat),
      (u', q) ∈ vizinhos acc x →
      ∃ p', (u', p') ∈ vizinhos
        (adj.foldl (fun acc2 vp => setEdge acc2 vp.1 e1 vp.2) acc) x := by
    intro e1 adj
    induction adj with
    | nil => intro acc q h; exact ⟨q, h⟩
    | cons vp t ih =>
      intro acc q h
      rw [List.foldl_cons]
      obtain ⟨p', hp'⟩ := exists_mem_vizinhos_setEdge vp.1 e1 vp.2 h
      exact ih _ p' hp'
  intro L
  induction L with
  | nil => intro acc p h; exact ⟨p, h⟩
  | cons e t ih =>
    intro acc p h
    rw [List.foldl_cons]
    obtain ⟨p', hp'⟩ := hinner e.1 e.2 acc p h
    obtain ⟨p'', hp''⟩ := ih _ p' hp'
    exact ⟨p'', hp''⟩

theorem transposeG_complete {g : Grafo V} {u v : V} {p : Nat} (h : edge g u v p) :
    ∃ p', edge (transposeG g) v u p' := by
  unfold edge at h ⊢
  unfold vizinhos at h
  cases hl : lookupA g u with
  | none => rw [hl] at h; simp at h
  | some adj =>
    rw [hl] at h
    simp only [Option.getD_some] at h
    have hstep : ∀ (L1 L2 : List (V × Adj V)), g = L1 ++ (u, adj) :: L2 →
        ∃ p', (u, p') ∈ vizinhos (transposeG g) v := by
      intro L1 L2 hsplit
      unfold transposeG
      rw [hsplit, List.foldl_append, List.foldl_cons]
      set acc0 := L1.foldl (fun acc e => e.2.foldl
        (fun acc2 vp => setEdge acc2 vp.1 e.1 vp.2) acc) ([] : Grafo V)
      have hinner : ∃ q, (u, q) ∈ vizinhos
          (adj.foldl (fun acc2 vp => setEdge acc2 vp.1 u vp.2) acc0) v := by
        clear hsplit
        have haux : ∀ (adj2 : List (V × Nat)) (acc : Grafo V),
            (v, p) ∈ adj2 ∨ (∃ q, (u, q) ∈ vizinhos acc v) →
            ∃ q, (u, q) ∈ vizinhos
              (adj2.foldl (fun acc2 vp => setEdge acc2 vp.1 u vp.2) acc) v := by
          intro adj2
          induction adj2 with
          | nil =>
            intro acc hc
            rcases hc with hc | hc
            · simp at hc
            · exact hc
          | cons vp t ihaux =>
            intro acc hc
            rw [List.foldl_cons]
            rcases hc with hc | ⟨q, hq⟩
            · rcases List.mem_cons.mp hc with h1 | h1
              · refine ihaux _ (Or.inr ?_)
                have hv1 : vp.1 = v := by rw [← h1]
                rw [hv1]
                exact ⟨vp.2, setEdge_self_mem acc v u vp.2⟩
              · exact ihaux _ (Or.inl h1)
            · obtain ⟨q', hq'⟩ := exists_mem_vizinhos_setEdge vp.1 u vp.2 hq
              exact ihaux _ (Or.inr ⟨q', hq'⟩)
        exact haux adj acc0 (Or.inl h)
      obtain ⟨q, hq⟩ := hinner
      exact transposeG_pres L2 _ q hq
    obtain ⟨L1, L2, hsplit⟩ := List.append_of_mem (lookupA_mem hl)
    exact hstep L1 L2 hsplit

/-! ## Reachability lemmas and `_eh_fortemente_conexo` -/

theorem reach_trans {g : Grafo V} {a b c : V} (h1 : Reach g a b) (h2 : Reach g b c) :
    Reach g a c := by
  obtain ⟨c2, l2, hw2⟩ := h2
  induction hw2 with
  | refl => exact h1
  | @snoc u w l' c' p hwalk hedge ih =>
    obtain ⟨cc, ll, hww⟩ := ih
    exact ⟨cc + p, ll ++ [w], IsWalk.snoc hww hedge⟩

theorem reach_front {g : Grafo V} {a b c : V} {p : Nat} (h1 : edge g a b p)
    (h2 : Reach g b c) : Reach g a c :=
  reach_trans ⟨0 + p, [a] ++ [b], IsWalk.snoc IsWalk.refl h1⟩ h2

theorem reach_transpose {g : Grafo V} (hnd : (g.map Prod.fst).Nodup) {a b : V} :
    Reach (transposeG g) a b ↔ Reach g b a := by
  have hdir : ∀ (g1 g2 : Grafo V),
      (∀ u v p, edge g1 u v p → ∃ p', edge g2 v u p') →
      ∀ {a b : V}, Reach g1 a b → Reach g2 b a := by
    intro g1 g2 hflip a b hr
    obtain ⟨c, l, hw⟩ := hr
    induction hw with
    | refl => exact ⟨0, _, IsWalk.refl⟩
    | @snoc u w l' c' p hwalk hedge ih =>
      obtain ⟨p', hp'⟩ := hflip u w p hedge
      exact reach_front hp' ih
  constructor
  · refine hdir _ _ ?_
    intro u v p he
    obtain ⟨e, heg, vp, hvp, hvpx, he1⟩ := transposeG_sound u v p he
    have hlook : lookupA g e.1 = some e.2 := lookupA_of_mem_nodup hnd heg
    refine ⟨vp.2, ?_⟩
    unfold edge vizinhos
    rw [he1] at hlook
    rw [hlook]
    simp only [Option.getD_some]
    rw [← hvpx]
    exact hvp
  · refine hdir _ _ ?_
    intro u v p he
    obtain ⟨p', hp'⟩ := transposeG_complete he
    exact ⟨p', hp'⟩

theorem eqSet_iff {a b : List V} :
    eqSet a b = true ↔ (∀ x ∈ a, x ∈ b) ∧ (∀ x ∈ b, x ∈ a) := by
  unfold eqSet
  rw [Bool.and_eq_true, List.all_eq_true, List.all_eq_true]
  simp

theorem reach_target {g : Grafo V} {a b : V} (h : Reach g a b) :
    b = a ∨ b ∈ targetsOf g := by
  obtain ⟨c, l, hw⟩ := h
  cases hw with
  | refl => exact Or.inl rfl
  | snoc hwalk hedge => exact Or.inr (edge_target_mem hedge)

theorem edge_source_mem_keys {g : Grafo V} {a w : V} {p : Nat} (h : edge g a w p) :
    a ∈ g.map Prod.fst := by
  unfold edge vizinhos at h
  cases hl : lookupA g a with
  | none => rw [hl] at h; simp at h
  | some adj =>
    rw [← lookupA_isSome_iff, hl]
    rfl

theorem reach_first_edge {g : Grafo V} {a b : V} (h : Reach g a b) :
    a = b ∨ ∃ w p, edge g a w p := by
  obtain ⟨c, l, hw⟩ := h
  induction hw with
  | refl => exact Or.inl rfl
  | @snoc u w l' c' p hwalk hedge ih =>
    rcases ih with h1 | h1
    · exact Or.inr ⟨w, p, h1 ▸ hedge⟩
    · exact Or.inr h1

theorem targets_sub_vertices {st : Estado V} (h : EstadoBom st) :
    ∀ x ∈ targetsOf st.grafo, x ∈ st.vertices := by
  intro x hx
  simp only [targetsOf, List.mem_flatten] at hx
  obtain ⟨keys, hkeys, hxk⟩ := hx
  obtain ⟨e, he, rfl⟩ := List.mem_map.mp hkeys
  obtain ⟨vp, hvp, rfl⟩ := List.mem_map.mp hxk
  exact h.2.2.2.2.2.1 e he vp hvp

theorem fortementeConexo_iff {st : Estado V} (h : EstadoBom st) :
    ehFortementeConexo st = true ↔
    (st.vertices = [] ∨ ∀ u ∈ st.vertices, ∀ v ∈ st.vertices, Reach st.grafo u v) := by
  have hndK : (st.grafo.map Prod.fst).Nodup := h.2.1
  cases hverts : st.vertices with
  | nil =>
    unfold ehFortementeConexo
    rw [hverts]
    simp
  | cons v0 vs =>
    unfold ehFortementeConexo
    rw [hverts, Bool.and_eq_true, eqSet_iff, eqSet_iff]
    have hv0 : v0 ∈ v0 :: vs := List.mem_cons_self _ _
    constructor
    · rintro ⟨⟨hn1, hn2⟩, hi1, hi2⟩
      refine Or.inr ?_
      intro u hu v hv
      have h1 : Reach st.grafo u v0 := by
        have hm : u ∈ bfs (transposeG st.grafo) v0 := hi2 u hu
        rw [bfs_mem] at hm
        exact (reach_transpose hndK).mp hm
      have h2 : Reach st.grafo v0 v := by
        have hm : v ∈ bfs st.grafo v0 := hn2 v hv
        rwa [bfs_mem] at hm
      exact reach_trans h1 h2
    · intro hRHS
      have hpair : ∀ u ∈ v0 :: vs, ∀ v ∈ v0 :: vs, Reach st.grafo u v := by
        rcases hRHS with h1 | h1
        · cases h1
        · exact h1
      refine ⟨⟨?_, ?_⟩, ?_, ?_⟩
      · intro x hx
        rw [bfs_mem] at hx
        rcases reach_target hx with h1 | h1
        · rw [h1]; exact List.mem_cons_self _ _
        · rw [← hverts]
          exact targets_sub_vertices h x h1
      · intro x hx
        rw [bfs_mem]
        exact hpair v0 hv0 x hx
      · intro x hx
        rw [bfs_mem] at hx
        have hxr : Reach st.grafo x v0 := (reach_transpose hndK).mp hx
        rcases reach_first_edge hxr with h1 | h1
        · rw [h1]; exact List.mem_cons_self _ _
        · obtain ⟨w, p, he⟩ := h1
          obtain ⟨e, heg, he1⟩ := List.mem_map.mp (edge_source_mem_keys he)
          rw [← hverts, ← he1]
          exact h.2.2.2.1 e heg
      · intro x hx
        rw [bfs_mem, reach_transpose hndK]
        exact hpair x hx v0 hv0

/-- C4: `_eh_fortemente_conexo()` returns true exactly when the vertex set
is empty or every vertex is reachable from every other following edge
direction — the implemented double-BFS test coincides with strong
connectivity. -/
theorem c4_eh_fortemente_conexo {st : Estado V} (h : EstadoBom st) :
    ehFortementeConexo st = true ↔
    (st.vertices = [] ∨ ∀ u ∈ st.vertices, ∀ v ∈ st.vertices, Reach st.grafo u v) :=
  fortementeConexo_iff h

/-- Witness for C4 on the directed triangle. -/
theorem c4_eh_fortemente_conexo_witness :
    EstadoBom estCiclo3 ∧
    (ehFortementeConexo estCiclo3 = true ↔
      (estCiclo3.vertices = [] ∨
        ∀ u ∈ estCiclo3.vertices, ∀ v ∈ estCiclo3.vertices, Reach estCiclo3.grafo u v)) :=
  ⟨by decide, c4_eh_fortemente_conexo (by decide)⟩

/-! ## The Eulerian verdict (claim C3) -/

theorem isEmpty_append (l l' : List α) : (l ++ l').isEmpty = (l.isEmpty && l'.isEmpty) := by
  cases l <;> simp

theorem fortementeConexo_iff_pares {st : Estado V} (h : EstadoBom st) :
    ehFortementeConexo st = true ↔
    (∀ u ∈ st.vertices, ∀ v ∈ st.vertices, Reach st.grafo u v) := by
  rw [fortementeConexo_iff h]
  constructor
  · rintro (h1 | h1)
    · intro u hu
      rw [h1] at hu
      cases hu
    · exact h1
  · exact Or.inr

theorem balance_iff [ToString V] (st : Estado V) :
    ((st.vertices.filter
      (fun v => decide (grauEntradaV st.grafo v ≠ grauSaidaV st.grafo v))).map
      (fun v => "   - " ++ toString v ++ " → entrada: " ++
        toString (grauEntradaV st.grafo v) ++ ", saída: " ++
        toString (grauSaidaV st.grafo v))).isEmpty = true ↔
    (∀ v ∈ st.vertices, grauEntradaV st.grafo v = grauSaidaV st.grafo v) := by
  rw [List.isEmpty_iff, List.map_eq_nil_iff, List.filter_eq_nil_iff]
  constructor
  · intro hc v hv
    have := hc v hv
    simpa using this
  · intro hc v hv
    simp [hc v hv]

theorem grafoEuleriano_verdict [ToString V] {st : Estado V} (h : EstadoBom st) :
    (grafoEuleriano st).1 = true ↔
    (∀ v ∈ st.vertices, grauEntradaV st.grafo v = grauSaidaV st.grafo v) ∧
    (∀ u ∈ st.vertices, ∀ v ∈ st.vertices, Reach st.grafo u v) := by
  unfold grafoEuleriano
  simp only []
  rw [isEmpty_append, Bool.and_eq_true]
  rw [← balance_iff st, ← fortementeConexo_iff_pares h]
  by_cases h1 : ((st.vertices.filter
      (fun v => decide (grauEntradaV st.grafo v ≠ grauSaidaV st.grafo v))).map
      (fun v => "   - " ++ toString v ++ " → entrada: " ++
        toString (grauEntradaV st.grafo v) ++ ", saída: " ++
        toString (grauSaidaV st.grafo v))).isEmpty = true <;>
    by_cases h2 : ehFortementeConexo st = true <;>
    simp [h1, h2]

/-- C3: the Eulerian verdict is true exactly when every vertex has weighted
in-degree equal to weighted out-degree and the graph is strongly connected;
on the directed 1-weighted triangle it is `(true, [])`; and whenever the
verdict is false the reasons list is non-empty. -/
theorem c3_grafo_euleriano [ToString V] :
    (∀ st : Estado V, EstadoBom st →
      (((grafoEuleriano st).1 = true ↔
        (∀ v ∈ st.vertices, grauEntradaV st.grafo v = grauSaidaV st.grafo v) ∧
        (∀ u ∈ st.vertices, ∀ v ∈ st.vertices, Reach st.grafo u v)) ∧
       ((grafoEuleriano st).1 = false → (grafoEuleriano st).2 ≠ []))) ∧
    grafoEuleriano estCiclo3 = (true, []) := by
  constructor
  · intro st h
    refine ⟨grafoEuleriano_verdict h, ?_⟩
    intro hfalse hcon
    have : (grafoEuleriano st).1 = true := by
      unfold grafoEuleriano at hcon ⊢
      simp only [] at hcon ⊢
      rw [List.isEmpty_iff]
      exact hcon
    rw [this] at hfalse
    cases hfalse
  · rfl

/-- Witness for C3, applied to the triangle state. -/
theorem c3_grafo_euleriano_witness :
    EstadoBom estCiclo3 ∧
    (((grafoEuleriano estCiclo3).1 = true ↔
      (∀ v ∈ estCiclo3.vertices,
        grauEntradaV estCiclo3.grafo v = grauSaidaV estCiclo3.grafo v) ∧
      (∀ u ∈ estCiclo3.vertices, ∀ v ∈ estCiclo3.vertices, Reach estCiclo3.grafo u v)) ∧
     ((grafoEuleriano estCiclo3).1 = false → (grafoEuleriano estCiclo3).2 ≠ [])) :=
  ⟨by decide, (c3_grafo_euleriano.1 estCiclo3 (by decide))⟩

/-- Witness for C8 at a concrete input. -/
theorem c8_lei_do_balanco_witness :
    (∀ p ∈ [((0 : Nat), (1 : Nat)), (0, 1), (1, 2), (2, 0)], p.1 ≠ p.2) ∧
    (((construir [((0 : Nat), (1 : Nat)), (0, 1), (1, 2), (2, 0)]).vertices.map
        (grauSaidaV (construir [((0 : Nat), 1), (0, 1), (1, 2), (2, 0)]).grafo)).sum =
      ((construir [((0 : Nat), 1), (0, 1), (1, 2), (2, 0)]).vertices.map
        (grauEntradaV (construir [((0 : Nat), 1), (0, 1), (1, 2), (2, 0)]).grafo)).sum ∧
    ((construir [((0 : Nat), 1), (0, 1), (1, 2), (2, 0)]).vertices.map
        (grauSaidaV (construir [((0 : Nat), 1), (0, 1), (1, 2), (2, 0)]).grafo)).sum =
      [((0 : Nat), (1 : Nat)), (0, 1), (1, 2), (2, 0)].length) :=
  ⟨by decide, c8_lei_do_balanco (by decide)⟩

end GrafoEnron
